import Mathlib

/-!
Verification of the maelstrom/meticulous repository specification.

This file gives a shallow embedding, in Lean 4, of the parts of the
repository that the verified claims are about:

* the LayerFS bottom-layer builder and the upper-layer merge walk
  (crates/maelstrom-fuse/src/layer_fs/builder.rs),
* the FUSE adapter dispatch loop (crates/maelstrom-fuse/src/lib.rs),
* the broker listener Hello classification (crates/meticulous-broker/src/lib.rs
  together with the Hello enum of crates/maelstrom-base/src/proto.rs),
* the protobuf NonEmpty conversion (crates/maelstrom-client-base/src/proto_buf_conv.rs),
* the image-name grammar (crates/maelstrom-container/src/image_name.rs).

Pure functions of the source are translated into Lean functions; stateful
builder code is translated into explicit state passing with Except for
fallible operations.  Operations whose implementation lives in repository
files that are not part of the given sources (layer_fs/dir.rs and
layer_fs/file.rs) are modelled from the specification text and are marked
as such in their doc comments.
-/

namespace LayerFsModel

/-- LayerId is a numeric layer identifier (layer_fs/ty.rs).  Modelled from the
spec: the concrete value of LayerId::BOTTOM is not in the given sources; the
spec only requires a distinguished bottom id, so it is modelled as 0. -/
def bottomLayerId : Nat := 0

/-- FileId = (LayerId, offset) as described by the spec and used all over
builder.rs. -/
structure FileIdL where
  layer : Nat
  offset : Nat
deriving DecidableEq, Repr

/-- FileId::root(layer_id): the root of every layer is FileId(layer_id, 0). -/
def FileIdL.root (layer : Nat) : FileIdL := ⟨layer, 0⟩

/-- FileType from layer_fs/ty.rs, restricted to the constructors used by the
builder code in the given sources. -/
inductive FileTy where
  | directory
  | regularFile
  | symlink
deriving DecidableEq, Repr

/-- FileData from layer_fs/ty.rs: Empty, Inline bytes, or a ranged reference
into a content-addressed blob. -/
inductive FileDataL where
  | empty
  | inline (bytes : List Nat)
  | digest (digest : Nat) (offset : Nat) (length : Nat)
deriving DecidableEq, Repr

/-- FileAttributes: size, mode, mtime. -/
structure FileAttributesL where
  size : Nat
  mode : Nat
  mtime : Int
deriving DecidableEq, Repr

/-- DirectoryEntryData: the value stored for each name in a directory
table. -/
structure DirectoryEntryDataL where
  file_id : FileIdL
  kind : FileTy
deriving DecidableEq, Repr

/-- One file-table record: type, attributes and data locator. -/
structure FileRecord where
  ty : FileTy
  attrs : FileAttributesL
  data : FileDataL
deriving DecidableEq, Repr

/-- A directory table: the sorted association list of (name, entry) pairs the
spec describes for one directory. -/
abbrev DirTable := List (String × DirectoryEntryDataL)

/-- State of a BottomLayerBuilder: the file/attribute table (one list of
records, index = offset) and the directory tables keyed by directory file id,
plus the configured mtime.  Modelled from the spec: the file table is an
append-only sequence of fixed-size records keyed by (layer_id, offset), so a
fresh record gets offset = current number of records. -/
structure BuilderState where
  files : List FileRecord
  dirs : List (FileIdL × DirTable)
  time : Int
deriving DecidableEq, Repr

/-- Modelled from the spec: FileMetadataWriter::insert_file (layer_fs/file.rs,
not among the given sources) appends one record to the append-only file table
and returns its id, FileId(BOTTOM, offset of the new record). -/
def insertFile (st : BuilderState) (ty : FileTy) (attrs : FileAttributesL)
    (data : FileDataL) : FileIdL × BuilderState :=
  (⟨bottomLayerId, st.files.length⟩,
   { st with files := st.files ++ [⟨ty, attrs, data⟩] })

/-- Modelled from the spec: FileMetadataWriter::update_attributes rewrites the
attributes of the record at the given id in place; no record is added or
removed. -/
def updateAttributes (st : BuilderState) (id : FileIdL)
    (attrs : FileAttributesL) : BuilderState :=
  { st with
    files := st.files.mapIdx fun i r =>
      if i = id.offset then { r with attrs := attrs } else r }

/-- Find the directory table for a directory file id. -/
def dirTableOf (st : BuilderState) (id : FileIdL) : DirTable :=
  match st.dirs.find? (fun p => p.1 = id) with
  | some p => p.2
  | none => []

/-- Replace (or create) the directory table for a directory file id. -/
def setDirTable (st : BuilderState) (id : FileIdL) (t : DirTable) :
    BuilderState :=
  if (st.dirs.find? (fun p => p.1 = id)).isSome then
    { st with dirs := st.dirs.map fun p => if p.1 = id then (id, t) else p }
  else
    { st with dirs := st.dirs ++ [(id, t)] }

/-- Modelled from the spec: DirectoryDataWriter::write_empty
(layer_fs/dir.rs, not among the given sources) creates an empty directory
table for a freshly inserted directory. -/
def writeEmptyDir (st : BuilderState) (id : FileIdL) : BuilderState :=
  setDirTable st id []

/-- Look up the entry stored under a name in one directory table. -/
def tableLookup (t : DirTable) (name : String) :
    Option DirectoryEntryDataL :=
  match t.find? (fun p => p.1 = name) with
  | some p => some p.2
  | none => none

/-- Modelled from the spec: DirectoryDataWriter::insert_entry
(layer_fs/dir.rs, not among the given sources) inserts (name, entry) into the
sorted directory table and reports whether it inserted; a name that is
already present is left unchanged and reported as not inserted, which is the
behaviour builder.rs relies on for its duplicate handling. -/
def tableInsert (t : DirTable) (name : String)
    (entry : DirectoryEntryDataL) : Bool × DirTable :=
  if (tableLookup t name).isSome then
    (false, t)
  else
    (true, t ++ [(name, entry)])

/-- BottomLayerBuilder::look_up_entry: read the entry for a name in the
directory with id dir_id. -/
def lookUpEntry (st : BuilderState) (dirId : FileIdL) (name : String) :
    Option DirectoryEntryDataL :=
  tableLookup (dirTableOf st dirId) name

/-- BottomLayerBuilder::look_up: like look_up_entry but projecting the file
id. -/
def lookUp (st : BuilderState) (dirId : FileIdL) (name : String) :
    Option FileIdL :=
  (lookUpEntry st dirId name).map (·.file_id)

/-- BottomLayerBuilder::add_link: insert one (name → entry) link into the
parent directory table, reporting whether it was inserted. -/
def addLink (st : BuilderState) (parent : FileIdL) (name : String)
    (fileId : FileIdL) (kind : FileTy) : Bool × BuilderState :=
  let res := tableInsert (dirTableOf st parent) name ⟨fileId, kind⟩
  (res.1, setDirTable st parent res.2)

/-- BottomLayerBuilder::add_dir: insert a directory file record, link it under
its parent (asserting the link was fresh, as the source does with
assert_is_true), and create its empty directory table. -/
def addDir (st : BuilderState) (parent : FileIdL) (name : String)
    (attrs : FileAttributesL) : Except String (FileIdL × BuilderState) :=
  let ins := insertFile st .directory attrs .empty
  let link := addLink ins.2 parent name ins.1 .directory
  if link.1 then
    .ok (ins.1, writeEmptyDir link.2 ins.1)
  else
    .error "assert_is_true failed in add_dir"

/-- A component of a Utf8Path as iterated by ensure_path: the root component,
a normal component, or anything else (CurDir, ParentDir, a prefix), which
ensure_path rejects. -/
inductive PathCompL where
  | rootDir
  | normal (s : String)
  | otherComp
deriving DecidableEq, Repr

/-- A Utf8Path value as far as the builder code consumes it: its component
list. -/
structure PathL where
  comps : List PathCompL
deriving DecidableEq, Repr

/-- Utf8Path::file_name: the final component when it is a normal component. -/
def PathL.fileName (p : PathL) : Option String :=
  match p.comps.getLast? with
  | some (.normal s) => some s
  | _ => none

/-- Utf8Path::parent: the path without its final component; none for the empty
path and for the root path. -/
def PathL.parent (p : PathL) : Option PathL :=
  match p.comps with
  | [] => none
  | [.rootDir] => none
  | _ => some ⟨p.comps.dropLast⟩

/-- The body of BottomLayerBuilder::ensure_path: walk the components starting
from FileId::root(LayerId::BOTTOM), skipping the root component, following
existing entries and creating missing directories with mode 0o777 and the
configured mtime; any non-normal component is an error. -/
def ensureComps (st : BuilderState) (comps : List PathCompL)
    (dirId : FileIdL) : Except String (FileIdL × BuilderState) :=
  match comps with
  | [] => .ok (dirId, st)
  | .rootDir :: rest => ensureComps st rest dirId
  | .otherComp :: _ => .error "unsupported path"
  | .normal c :: rest =>
    match lookUp st dirId c with
    | some newDirId => ensureComps st rest newDirId
    | none =>
      match addDir st dirId c ⟨0, 0o777, st.time⟩ with
      | .ok (newDirId, st2) => ensureComps st2 rest newDirId
      | .error e => .error e

/-- BottomLayerBuilder::ensure_path. -/
def ensurePath (st : BuilderState) (p : PathL) :
    Except String (FileIdL × BuilderState) :=
  ensureComps st p.comps (FileIdL.root bottomLayerId)

/-- The parent-resolution step shared by add_file_path, add_dir_path,
add_symlink_path and add_link_path: ensure_path on path.parent() when it
exists, else FileId::root(LayerId::BOTTOM). -/
def resolveParent (st : BuilderState) (p : PathL) :
    Except String (FileIdL × BuilderState) :=
  match p.parent with
  | some par => ensurePath st par
  | none => .ok (FileIdL.root bottomLayerId, st)

/-- BottomLayerBuilder::add_file_path: insert the regular-file record first,
then resolve the parent directory and link the record under the file name; a
name that was already present is an error. -/
def addFilePath (st : BuilderState) (p : PathL) (attrs : FileAttributesL)
    (data : FileDataL) : Except String (FileIdL × BuilderState) :=
  let ins := insertFile st .regularFile attrs data
  match resolveParent ins.2 p with
  | .error e => .error e
  | .ok (parentId, st1) =>
    match p.fileName with
    | none => .error "missing file name"
    | some name =>
      let link := addLink st1 parentId name ins.1 .regularFile
      if link.1 then .ok (ins.1, link.2)
      else .error "file already exists"

/-- BottomLayerBuilder::set_attr. -/
def setAttr (st : BuilderState) (id : FileIdL) (attrs : FileAttributesL) :
    BuilderState :=
  updateAttributes st id attrs

/-- BottomLayerBuilder::add_dir_path: resolve the parent, and when the name
already resolves, only update the attributes of the existing file id;
otherwise create the directory. -/
def addDirPath (st : BuilderState) (p : PathL) (attrs : FileAttributesL) :
    Except String (FileIdL × BuilderState) :=
  match resolveParent st p with
  | .error e => .error e
  | .ok (parentId, st1) =>
    match p.fileName with
    | none => .error "missing file name"
    | some name =>
      match lookUp st1 parentId name with
      | some existing => .ok (existing, setAttr st1 existing attrs)
      | none => addDir st1 parentId name attrs

/-- BottomLayerBuilder::add_symlink_path: insert a file record of kind Symlink
with the inline target bytes, then resolve the parent and link the record
under the file name (the source passes FileType::RegularFile as the link
kind); a name that was already present is an error. -/
def addSymlinkPath (st : BuilderState) (p : PathL) (target : List Nat) :
    Except String (FileIdL × BuilderState) :=
  let ins := insertFile st .symlink ⟨0, 0o777, st.time⟩ (.inline target)
  match resolveParent ins.2 p with
  | .error e => .error e
  | .ok (parentId, st1) =>
    match p.fileName with
    | none => .error "missing file name"
    | some name =>
      let link := addLink st1 parentId name ins.1 .regularFile
      if link.1 then .ok (ins.1, link.2)
      else .error "file already exists"

/-- BottomLayerBuilder::add_link_path: resolve the parent of the link path and
of the target path, look up the target entry, fail when it is missing or a
directory, and otherwise link the existing file id (with the existing kind)
under the link name. -/
def addLinkPath (st : BuilderState) (p : PathL) (target : PathL) :
    Except String (FileIdL × BuilderState) :=
  match resolveParent st p with
  | .error e => .error e
  | .ok (parentId, st1) =>
    match p.fileName with
    | none => .error "missing file name"
    | some name =>
      match resolveParent st1 target with
      | .error e => .error e
      | .ok (targetParentId, st2) =>
        match target.fileName with
        | none => .error "missing file name"
        | some targetName =>
          match lookUpEntry st2 targetParentId targetName with
          | none => .error "link target not found"
          | some existing =>
            if existing.kind = .directory then
              .error "hardlink to directory not allowed"
            else
              let link := addLink st2 parentId name existing.file_id
                existing.kind
              .ok (existing.file_id, link.2)

/-- The empty builder state before BottomLayerBuilder::new runs. -/
def emptyState (time : Int) : BuilderState := ⟨[], [], time⟩

/-- BottomLayerBuilder::new: insert the root directory (mode 0o777, size 0,
the configured mtime) as the first file-table record, check the returned id
against FileId::root(LayerId::BOTTOM) as the source asserts, and create the
empty root directory table. -/
def newBuilder (time : Int) : Except String BuilderState :=
  let ins := insertFile (emptyState time) .directory ⟨0, 0o777, time⟩ .empty
  if ins.1 = FileIdL.root bottomLayerId then
    .ok (writeEmptyDir ins.2 ins.1)
  else
    .error "assert_eq failed in new"

end LayerFsModel

namespace LayerFsModel

theorem files_setDirTable (st : BuilderState) (id : FileIdL) (t : DirTable) :
    (setDirTable st id t).files = st.files := by
  unfold setDirTable
  split <;> rfl

theorem files_writeEmptyDir (st : BuilderState) (id : FileIdL) :
    (writeEmptyDir st id).files = st.files :=
  files_setDirTable st id []

theorem files_addLink (st : BuilderState) (parent : FileIdL) (name : String)
    (fileId : FileIdL) (kind : FileTy) :
    (addLink st parent name fileId kind).2.files = st.files :=
  files_setDirTable st parent _

theorem addDir_ok_files {st : BuilderState} {parent : FileIdL} {name : String}
    {attrs : FileAttributesL} {r : FileIdL × BuilderState}
    (h : addDir st parent name attrs = .ok r) :
    r.2.files = st.files ++ [⟨.directory, attrs, .empty⟩] := by
  unfold addDir at h
  simp only at h
  split at h
  · cases h
    simp [files_writeEmptyDir, files_addLink, insertFile]
  · cases h

theorem ensureComps_files {comps : List PathCompL} {st : BuilderState}
    {dirId : FileIdL} {r : FileIdL × BuilderState}
    (h : ensureComps st comps dirId = .ok r) :
    ∃ ext, r.2.files = st.files ++ ext := by
  induction comps generalizing st dirId with
  | nil =>
    cases h
    exact ⟨[], by simp⟩
  | cons c rest ih =>
    cases c with
    | rootDir => exact ih h
    | otherComp => cases h
    | normal s =>
      unfold ensureComps at h
      cases hl : lookUp st dirId s with
      | some newDirId =>
        rw [hl] at h
        exact ih h
      | none =>
        rw [hl] at h
        cases ha : addDir st dirId s ⟨0, 0o777, st.time⟩ with
        | error e => rw [ha] at h; cases h
        | ok pr =>
          rw [ha] at h
          obtain ⟨ext, hext⟩ := ih h
          exact ⟨[⟨.directory, ⟨0, 0o777, st.time⟩, .empty⟩] ++ ext, by
            rw [hext, addDir_ok_files ha, List.append_assoc]⟩

theorem resolveParent_files {st : BuilderState} {p : PathL}
    {r : FileIdL × BuilderState} (h : resolveParent st p = .ok r) :
    ∃ ext, r.2.files = st.files ++ ext := by
  unfold resolveParent at h
  cases hp : p.parent with
  | some par =>
    rw [hp] at h
    exact ensureComps_files h
  | none =>
    rw [hp] at h
    cases h
    exact ⟨[], by simp⟩

theorem dirTableOf_setDirTable_self (st : BuilderState) (id : FileIdL)
    (t : DirTable) : dirTableOf (setDirTable st id t) id = t := by
  by_cases hsome : (st.dirs.find? fun p => p.1 = id).isSome
  · have key : ∀ dirs : List (FileIdL × DirTable),
        ((dirs.find? fun p => p.1 = id).isSome) →
        ((dirs.map fun p => if p.1 = id then (id, t) else p).find?
          fun p => p.1 = id) = some (id, t) := by
      intro dirs
      induction dirs with
      | nil => intro hc; simp at hc
      | cons hd tl ih =>
        intro hc
        by_cases hh : hd.1 = id
        · simp [hh]
        · simp only [List.map_cons, if_neg hh]
          rw [List.find?_cons_of_neg _ (by simpa using hh)]
          rw [List.find?_cons_of_neg _ (by simpa using hh)] at hc
          exact ih hc
    rw [setDirTable, if_pos hsome]
    unfold dirTableOf
    simp only
    rw [key st.dirs hsome]
  · have h1 : (st.dirs.find? fun p => p.1 = id) = none := by
      cases hf : st.dirs.find? fun p => p.1 = id with
      | none => rfl
      | some v => rw [hf] at hsome; simp at hsome
    rw [setDirTable, if_neg hsome]
    unfold dirTableOf
    simp only
    rw [List.find?_append, h1]
    simp

theorem tableLookup_append_self (t : DirTable) (name : String)
    (e : DirectoryEntryDataL) (h : tableLookup t name = none) :
    tableLookup (t ++ [(name, e)]) name = some e := by
  unfold tableLookup at h ⊢
  rw [List.find?_append]
  cases hf : t.find? fun p => p.1 = name with
  | some v => rw [hf] at h; cases h
  | none => simp

/-- CLAIM C7.  During bottom-layer ingestion, adding a regular file at a path
whose name already has an entry in the resolved parent directory fails with
the "file already exists" error, while adding a directory at an existing
path succeeds, returns the existing file id, and only rewrites the
attributes of that id without adding a file-table record. -/
theorem duplicate_file_fails_duplicate_dir_updates_attrs :
    (∀ (st : BuilderState) (p : PathL) (attrs : FileAttributesL)
        (data : FileDataL) (parentId : FileIdL) (st1 : BuilderState)
        (name : String),
      p.fileName = some name →
      resolveParent (insertFile st .regularFile attrs data).2 p
        = .ok (parentId, st1) →
      (lookUp st1 parentId name).isSome →
      addFilePath st p attrs data = .error "file already exists")
    ∧ (∀ (st : BuilderState) (p : PathL) (attrs : FileAttributesL)
        (parentId existing : FileIdL) (st1 : BuilderState) (name : String),
      p.fileName = some name →
      resolveParent st p = .ok (parentId, st1) →
      lookUp st1 parentId name = some existing →
      addDirPath st p attrs = .ok (existing, setAttr st1 existing attrs)
      ∧ (setAttr st1 existing attrs).files.length = st1.files.length) := by
  constructor
  · intro st p attrs data parentId st1 name hname hres hsome
    have htl : (tableLookup (dirTableOf st1 parentId) name).isSome := by
      unfold lookUp lookUpEntry at hsome
      cases htl : tableLookup (dirTableOf st1 parentId) name with
      | some v => simp
      | none => rw [htl] at hsome; simp at hsome
    simp only [addFilePath, hres, hname, addLink, tableInsert, htl,
      if_true]
    rfl
  · intro st p attrs parentId existing st1 name hname hres hlook
    refine ⟨?_, ?_⟩
    · simp only [addDirPath, hres, hname, hlook]
    · simp [setAttr, updateAttributes]

/-- Concrete builder state used by the C7 witness: a root directory holding
one entry named a that points at file id (0, 1). -/
def c7State : BuilderState :=
  ⟨[⟨.directory, ⟨0, 0o777, 0⟩, .empty⟩],
   [(⟨0, 0⟩, [("a", ⟨⟨0, 1⟩, .regularFile⟩)])], 0⟩

/-- Concrete path used by the C7 witness. -/
def c7Path : PathL := ⟨[.rootDir, .normal "a"]⟩

/-- Witness for CLAIM C7 at a concrete builder state holding a root directory
with one entry named a. -/
theorem duplicate_file_fails_duplicate_dir_updates_attrs_witness :
    (c7Path.fileName = some "a"
      ∧ resolveParent (insertFile c7State .regularFile ⟨1, 0o644, 5⟩ .empty).2
          c7Path
          = .ok (⟨0, 0⟩, (insertFile c7State .regularFile ⟨1, 0o644, 5⟩ .empty).2)
      ∧ (lookUp (insertFile c7State .regularFile ⟨1, 0o644, 5⟩ .empty).2
          ⟨0, 0⟩ "a").isSome
      ∧ addFilePath c7State c7Path ⟨1, 0o644, 5⟩ .empty
          = .error "file already exists")
    ∧ (resolveParent c7State c7Path = .ok (⟨0, 0⟩, c7State)
      ∧ lookUp c7State ⟨0, 0⟩ "a" = some ⟨0, 1⟩
      ∧ addDirPath c7State c7Path ⟨7, 0o755, 9⟩
          = .ok (⟨0, 1⟩, setAttr c7State ⟨0, 1⟩ ⟨7, 0o755, 9⟩)) := by
  refine ⟨⟨rfl, rfl, rfl, ?_⟩, rfl, rfl, ?_⟩
  · exact duplicate_file_fails_duplicate_dir_updates_attrs.1
      c7State c7Path ⟨1, 0o644, 5⟩ .empty ⟨0, 0⟩
      (insertFile c7State .regularFile ⟨1, 0o644, 5⟩ .empty).2 "a"
      rfl rfl (by rfl)
  · exact (duplicate_file_fails_duplicate_dir_updates_attrs.2
      c7State c7Path ⟨7, 0o755, 9⟩ ⟨0, 0⟩ ⟨0, 1⟩ c7State "a"
      rfl rfl rfl).1

/-- CLAIM C5.  For a hardlink, the builder resolves the link parent and the
target parent, looks the target up, fails when the target is missing or is a
directory, and otherwise links the existing target file id (with the target
entry kind) under the link name, so the link resolves to the existing file
id. -/
theorem hardlink_target_checked_and_linked :
    ∀ (st : BuilderState) (p target : PathL) (name tname : String)
      (parentId targetParentId : FileIdL) (st1 st2 : BuilderState),
      p.fileName = some name →
      resolveParent st p = .ok (parentId, st1) →
      target.fileName = some tname →
      resolveParent st1 target = .ok (targetParentId, st2) →
      (lookUpEntry st2 targetParentId tname = none →
        addLinkPath st p target = .error "link target not found")
      ∧ (∀ e, lookUpEntry st2 targetParentId tname = some e →
          (e.kind = .directory →
            addLinkPath st p target
              = .error "hardlink to directory not allowed")
          ∧ (e.kind ≠ .directory →
            tableLookup (dirTableOf st2 parentId) name = none →
            addLinkPath st p target
              = .ok (e.file_id, (addLink st2 parentId name e.file_id e.kind).2)
            ∧ lookUp (addLink st2 parentId name e.file_id e.kind).2
                parentId name = some e.file_id)) := by
  intro st p target name tname parentId targetParentId st1 st2
    hname hres htname htres
  refine ⟨?_, ?_⟩
  · intro hmiss
    simp only [addLinkPath, hres, hname, htres, htname, hmiss]
  · intro e hhit
    refine ⟨?_, ?_⟩
    · intro hdir
      simp only [addLinkPath, hres, hname, htres, htname, hhit, if_pos hdir]
    · intro hnotdir hfresh
      refine ⟨?_, ?_⟩
      · simp only [addLinkPath, hres, hname, htres, htname, hhit,
          if_neg hnotdir]
      · unfold lookUp lookUpEntry addLink
        simp only
        rw [dirTableOf_setDirTable_self]
        unfold tableInsert
        rw [if_neg (by rw [hfresh]; simp)]
        simp only
        rw [tableLookup_append_self _ _ _ hfresh]
        rfl

/-- Concrete builder state used by the C5 witness: a root directory holding a
regular file named t (the link target) at file id (0, 1). -/
def c5State : BuilderState :=
  ⟨[⟨.directory, ⟨0, 0o777, 0⟩, .empty⟩,
    ⟨.regularFile, ⟨3, 0o644, 2⟩, .empty⟩],
   [(⟨0, 0⟩, [("t", ⟨⟨0, 1⟩, .regularFile⟩)])], 0⟩

/-- Witness for CLAIM C5: linking name l to existing target t in a concrete
state succeeds and the link resolves to the file id of t. -/
theorem hardlink_target_checked_and_linked_witness :
    (PathL.fileName ⟨[.rootDir, .normal "l"]⟩ = some "l"
      ∧ resolveParent c5State ⟨[.rootDir, .normal "l"]⟩
          = .ok (⟨0, 0⟩, c5State)
      ∧ PathL.fileName ⟨[.rootDir, .normal "t"]⟩ = some "t"
      ∧ resolveParent c5State ⟨[.rootDir, .normal "t"]⟩
          = .ok (⟨0, 0⟩, c5State)
      ∧ lookUpEntry c5State ⟨0, 0⟩ "t" = some ⟨⟨0, 1⟩, .regularFile⟩
      ∧ (⟨⟨0, 1⟩, .regularFile⟩ : DirectoryEntryDataL).kind ≠ .directory
      ∧ tableLookup (dirTableOf c5State ⟨0, 0⟩) "l" = none)
    ∧ addLinkPath c5State ⟨[.rootDir, .normal "l"]⟩ ⟨[.rootDir, .normal "t"]⟩
        = .ok (⟨0, 1⟩,
            (addLink c5State ⟨0, 0⟩ "l" ⟨0, 1⟩ .regularFile).2)
    ∧ lookUp (addLink c5State ⟨0, 0⟩ "l" ⟨0, 1⟩ .regularFile).2 ⟨0, 0⟩ "l"
        = some ⟨0, 1⟩ := by
  have h := ((hardlink_target_checked_and_linked c5State
      ⟨[.rootDir, .normal "l"]⟩ ⟨[.rootDir, .normal "t"]⟩ "l" "t"
      ⟨0, 0⟩ ⟨0, 0⟩ c5State c5State rfl rfl rfl rfl).2
      ⟨⟨0, 1⟩, .regularFile⟩ rfl).2 (by simp) rfl
  exact ⟨⟨rfl, rfl, rfl, rfl, rfl, by simp, rfl⟩, h.1, h.2⟩

/-- CLAIM C6.  For a symlink, the builder inserts a file record of kind
Symlink whose data is the inline target bytes, and after a successful insert
the new entry is reachable under the entry path: looking the name up in the
resolved parent directory yields the fresh file id, whose record carries the
inline target. -/
theorem symlink_inline_target_and_reachable :
    ∀ (st : BuilderState) (p : PathL) (target : List Nat) (name : String)
      (parentId : FileIdL) (st1 : BuilderState),
      p.fileName = some name →
      resolveParent
          (insertFile st .symlink ⟨0, 0o777, st.time⟩ (.inline target)).2 p
        = .ok (parentId, st1) →
      tableLookup (dirTableOf st1 parentId) name = none →
      addSymlinkPath st p target
        = .ok (⟨bottomLayerId, st.files.length⟩,
            (addLink st1 parentId name ⟨bottomLayerId, st.files.length⟩
              .regularFile).2)
      ∧ ((addLink st1 parentId name ⟨bottomLayerId, st.files.length⟩
            .regularFile).2.files)[st.files.length]?
          = some ⟨.symlink, ⟨0, 0o777, st.time⟩, .inline target⟩
      ∧ lookUp (addLink st1 parentId name ⟨bottomLayerId, st.files.length⟩
            .regularFile).2 parentId name
          = some ⟨bottomLayerId, st.files.length⟩ := by
  intro st p target name parentId st1 hname hres hfresh
  refine ⟨?_, ?_, ?_⟩
  · simp only [addSymlinkPath, hres, hname, addLink, tableInsert, hfresh]
    simp [insertFile]
  · rw [files_addLink]
    obtain ⟨ext, hext⟩ := resolveParent_files hres
    simp only [insertFile] at hext
    rw [hext, List.append_assoc, List.getElem?_append_right (le_refl _)]
    simp
  · unfold lookUp lookUpEntry addLink
    simp only
    rw [dirTableOf_setDirTable_self]
    unfold tableInsert
    rw [if_neg (by rw [hfresh]; simp)]
    simp only
    rw [tableLookup_append_self _ _ _ hfresh]
    rfl

/-- Concrete builder state used by the C6 witness: just a root directory. -/
def c6State : BuilderState :=
  ⟨[⟨.directory, ⟨0, 0o777, 0⟩, .empty⟩], [(⟨0, 0⟩, [])], 0⟩

/-- Witness for CLAIM C6: adding a symlink named s with target bytes [47, 98]
to a concrete state that has only a root directory. -/
theorem symlink_inline_target_and_reachable_witness :
    (PathL.fileName ⟨[.rootDir, .normal "s"]⟩ = some "s"
      ∧ resolveParent
          (insertFile c6State .symlink ⟨0, 0o777, 0⟩ (.inline [47, 98])).2
          ⟨[.rootDir, .normal "s"]⟩
          = .ok (⟨0, 0⟩,
            (insertFile c6State .symlink ⟨0, 0o777, 0⟩ (.inline [47, 98])).2)
      ∧ tableLookup
          (dirTableOf
            (insertFile c6State .symlink ⟨0, 0o777, 0⟩ (.inline [47, 98])).2
            ⟨0, 0⟩) "s" = none)
    ∧ addSymlinkPath c6State ⟨[.rootDir, .normal "s"]⟩ [47, 98]
        = .ok (⟨bottomLayerId, 1⟩,
            (addLink
              (insertFile c6State .symlink ⟨0, 0o777, 0⟩ (.inline [47, 98])).2
              ⟨0, 0⟩ "s" ⟨bottomLayerId, 1⟩ .regularFile).2)
    ∧ lookUp (addLink
          (insertFile c6State .symlink ⟨0, 0o777, 0⟩ (.inline [47, 98])).2
          ⟨0, 0⟩ "s" ⟨bottomLayerId, 1⟩ .regularFile).2 ⟨0, 0⟩ "s"
        = some ⟨bottomLayerId, 1⟩ := by
  have h := symlink_inline_target_and_reachable c6State
      ⟨[.rootDir, .normal "s"]⟩ [47, 98] "s" ⟨0, 0⟩
      (insertFile c6State .symlink ⟨0, 0o777, 0⟩ (.inline [47, 98])).2
      rfl rfl rfl
  exact ⟨⟨rfl, rfl, rfl⟩, h.1, h.2.2⟩

/-- The three-way result of one step of DoubleFsWalk::next. -/
inductive LeftRightL (α : Type) where
  | left (a : α)
  | right (a : α)
  | both (l r : α)
deriving DecidableEq, Repr

/-- One directory level of DoubleFsWalk: stream the left (lower) and right
(new bottom) directory tables in key order and emit Left, Right or Both
according to left_key.cmp(right_key), exactly as the match in
DoubleFsWalk::next does (the if-chain mirrors the Less / Greater / Equal
arms). -/
def mergeWalk : DirTable → DirTable →
    List (LeftRightL (String × DirectoryEntryDataL))
  | [], [] => []
  | l :: ls, [] => .left l :: mergeWalk ls []
  | [], r :: rs => .right r :: mergeWalk [] rs
  | l :: ls, r :: rs =>
    if l.1 < r.1 then .left l :: mergeWalk ls (r :: rs)
    else if r.1 < l.1 then .right r :: mergeWalk (l :: ls) rs
    else .both l r :: mergeWalk ls rs
termination_by L R => L.length + R.length

/-- Rewriting of a directory entry to the upper layer id, as done by
fill_from_bottom_layer: FileId::new(upper_id, entry.data.file_id.offset()). -/
def rewriteToUpper (u : Nat) (e : DirectoryEntryDataL) :
    DirectoryEntryDataL :=
  ⟨⟨u, e.file_id.offset⟩, e.kind⟩

/-- What fill_from_bottom_layer inserts for one walker item: a Left entry is
copied unchanged, a Right or Both entry is the right entry with its file id
rewritten to the upper layer id. -/
def fillEntry (u : Nat) :
    LeftRightL (String × DirectoryEntryDataL) →
    String × DirectoryEntryDataL
  | .left e => e
  | .right e => (e.1, rewriteToUpper u e.2)
  | .both _ e => (e.1, rewriteToUpper u e.2)

/-- The directory id fill_from_bottom_layer writes each item into:
FileId::new(upper_id, entry.right_parent.offset()). -/
def upperWriteDirId (u : Nat) (rightParent : FileIdL) : FileIdL :=
  ⟨u, rightParent.offset⟩

/-- The upper directory table produced for one directory reached in both
trees: every item the walker yields at that level is inserted through
DirectoryDataWriter::insert_entry in walk order. -/
def upperDirTable (u : Nat) (L R : DirTable) : DirTable :=
  ((mergeWalk L R).map (fillEntry u)).foldl
    (fun t item => (tableInsert t item.1 item.2).2) []

/-- A directory table is strictly sorted by its keys, the invariant the spec
states for directory tables. -/
def strictSorted (t : DirTable) : Prop :=
  t.Pairwise (fun a b => a.1 < b.1)

@[simp] theorem tableLookup_nil (k : String) :
    tableLookup ([] : DirTable) k = none := rfl

theorem tableLookup_cons (x : String × DirectoryEntryDataL) (t : DirTable)
    (k : String) :
    tableLookup (x :: t) k = if x.1 = k then some x.2 else tableLookup t k := by
  unfold tableLookup
  by_cases h : x.1 = k
  · rw [List.find?_cons_of_pos _ (by simpa using h), if_pos h]
  · rw [List.find?_cons_of_neg _ (by simpa using h), if_neg h]

theorem tableLookup_none_of_lt_head {x : String × DirectoryEntryDataL}
    {t : DirTable} {k : String} (hs : strictSorted (x :: t))
    (hk : k < x.1) : tableLookup (x :: t) k = none := by
  have hfind : (x :: t).find? (fun p => p.1 = k) = none := by
    apply List.find?_eq_none.2
    intro y hy
    simp only [decide_eq_true_eq]
    rcases List.mem_cons.1 hy with h | h
    · subst h
      exact ne_of_gt hk
    · have hlt2 : x.1 < y.1 := (List.pairwise_cons.1 hs).1 y h
      exact ne_of_gt (lt_trans hk hlt2)
  unfold tableLookup
  rw [hfind]

theorem tableLookup_append_single (t : DirTable) (n : String)
    (e : DirectoryEntryDataL) (k : String) :
    tableLookup (t ++ [(n, e)]) k =
      (tableLookup t k).or (if n = k then some e else none) := by
  unfold tableLookup
  rw [List.find?_append]
  cases hf : t.find? fun p => p.1 = k with
  | some v => simp
  | none =>
    simp only [Option.none_or]
    by_cases hnk : n = k
    · simp [List.find?, hnk]
    · simp [List.find?, hnk]

theorem tableLookup_tableInsert (t : DirTable) (n : String)
    (e : DirectoryEntryDataL) (k : String) :
    tableLookup (tableInsert t n e).2 k =
      if (tableLookup t k).isSome then tableLookup t k
      else if n = k then some e else none := by
  unfold tableInsert
  by_cases hmem : (tableLookup t n).isSome
  · rw [if_pos hmem]
    show tableLookup t k = _
    by_cases hk : (tableLookup t k).isSome
    · rw [if_pos hk]
    · rw [if_neg hk, Option.not_isSome_iff_eq_none.1 hk]
      by_cases hnk : n = k
      · exact absurd (hnk ▸ hmem) hk
      · rw [if_neg hnk]
  · rw [if_neg hmem]
    show tableLookup (t ++ [(n, e)]) k = _
    rw [tableLookup_append_single]
    by_cases hk : (tableLookup t k).isSome
    · obtain ⟨v, hv⟩ := Option.isSome_iff_exists.1 hk
      rw [hv]
      simp
    · rw [Option.not_isSome_iff_eq_none.1 hk]
      simp

theorem tableLookup_foldl_insert (items : List (String × DirectoryEntryDataL))
    (acc : DirTable) (k : String) :
    tableLookup
      (items.foldl (fun t item => (tableInsert t item.1 item.2).2) acc) k =
      if (tableLookup acc k).isSome then tableLookup acc k
      else tableLookup items k := by
  induction items generalizing acc with
  | nil =>
    simp only [List.foldl_nil]
    by_cases hk : (tableLookup acc k).isSome
    · rw [if_pos hk]
    · rw [if_neg hk, Option.not_isSome_iff_eq_none.1 hk, tableLookup_nil]
  | cons it its ih =>
    simp only [List.foldl_cons]
    rw [ih, tableLookup_tableInsert, tableLookup_cons]
    by_cases hacc : (tableLookup acc k).isSome
    · simp [hacc]
    · have hnone := Option.not_isSome_iff_eq_none.1 hacc
      by_cases hit : it.1 = k
      · simp [hnone, hit]
      · simp [hnone, hit]

theorem mergeWalk_lookup (u : Nat) (k : String) :
    ∀ (L R : DirTable), strictSorted L → strictSorted R →
      tableLookup ((mergeWalk L R).map (fillEntry u)) k =
        ((tableLookup R k).map (rewriteToUpper u)).or (tableLookup L k) := by
  intro L R
  induction L, R using mergeWalk.induct with
  | case1 =>
    intro _ _
    simp [mergeWalk]
  | case2 l ls ih =>
    intro hL hR
    rw [mergeWalk]
    simp only [List.map_cons, fillEntry]
    rw [tableLookup_cons, ih (List.Pairwise.of_cons hL) hR]
    by_cases h : l.1 = k <;> simp [h, tableLookup_cons]
  | case3 r rs ih =>
    intro hL hR
    rw [mergeWalk]
    simp only [List.map_cons, fillEntry]
    rw [tableLookup_cons, ih hL (List.Pairwise.of_cons hR)]
    by_cases h : r.1 = k <;> simp [h, tableLookup_cons]
  | case4 l ls r rs hlt ih =>
    intro hL hR
    rw [mergeWalk, if_pos hlt]
    simp only [List.map_cons, fillEntry]
    rw [tableLookup_cons, ih (List.Pairwise.of_cons hL) hR]
    by_cases h : l.1 = k
    · subst h
      rw [tableLookup_none_of_lt_head hR hlt]
      simp [tableLookup_cons]
    · simp [h, tableLookup_cons]
  | case5 l ls r rs hlt hgt ih =>
    intro hL hR
    rw [mergeWalk, if_neg hlt, if_pos hgt]
    simp only [List.map_cons, fillEntry]
    rw [tableLookup_cons, ih hL (List.Pairwise.of_cons hR)]
    by_cases h : r.1 = k <;> simp [h, tableLookup_cons]
  | case6 l ls r rs hlt hgt ih =>
    intro hL hR
    have heq : l.1 = r.1 := le_antisymm (not_lt.1 hgt) (not_lt.1 hlt)
    rw [mergeWalk, if_neg hlt, if_neg hgt]
    simp only [List.map_cons, fillEntry]
    rw [tableLookup_cons, ih (List.Pairwise.of_cons hL)
      (List.Pairwise.of_cons hR)]
    by_cases h : r.1 = k
    · simp [h, tableLookup_cons]
    · have hl : l.1 ≠ k := by rw [heq]; exact h
      simp [h, hl, tableLookup_cons]

/-- CLAIM C1.  In an upper-layer build, for a directory reached in both trees
and a name present in both the lower (left) and the new bottom (right)
directory table, the entry the walker causes fill_from_bottom_layer to write
into the upper directory table is the bottom entry with its file id
rewritten to the upper layer id; in particular the bottom entry wins over
the lower one whether or not it is a directory. -/
theorem upper_layer_equal_keys_bottom_entry_wins
    (u : Nat) (L R : DirTable) (k : String) (rD : DirectoryEntryDataL)
    (hL : strictSorted L) (hR : strictSorted R)
    (hinL : (tableLookup L k).isSome)
    (hinR : tableLookup R k = some rD) :
    tableLookup (upperDirTable u L R) k = some (rewriteToUpper u rD) := by
  have hboth := hinL
  unfold upperDirTable
  rw [tableLookup_foldl_insert, tableLookup_nil]
  simp only [Option.isSome_none, Bool.false_eq_true, if_false]
  rw [mergeWalk_lookup u k L R hL hR, hinR]
  rfl

/-- Witness for CLAIM C1: a lower and a bottom table that share the key a;
the upper table holds the bottom entry rewritten to layer id 2. -/
theorem upper_layer_equal_keys_bottom_entry_wins_witness :
    (strictSorted [("a", ⟨⟨0, 1⟩, .regularFile⟩)]
      ∧ strictSorted [("a", ⟨⟨1, 3⟩, .regularFile⟩)]
      ∧ (tableLookup [("a", ⟨⟨0, 1⟩, .regularFile⟩)] "a").isSome
      ∧ tableLookup [("a", ⟨⟨1, 3⟩, .regularFile⟩)] "a"
          = some ⟨⟨1, 3⟩, .regularFile⟩)
    ∧ tableLookup
        (upperDirTable 2 [("a", ⟨⟨0, 1⟩, .regularFile⟩)]
          [("a", ⟨⟨1, 3⟩, .regularFile⟩)]) "a"
        = some ⟨⟨2, 3⟩, .regularFile⟩ := by
  refine ⟨⟨List.pairwise_singleton _ _, List.pairwise_singleton _ _,
    rfl, rfl⟩, ?_⟩
  exact upper_layer_equal_keys_bottom_entry_wins 2
    [("a", ⟨⟨0, 1⟩, .regularFile⟩)] [("a", ⟨⟨1, 3⟩, .regularFile⟩)]
    "a" ⟨⟨1, 3⟩, .regularFile⟩ (List.pairwise_singleton _ _)
    (List.pairwise_singleton _ _) rfl rfl

/-- The files of one layer on disk as far as the upper-layer build touches
them: the file-table bytes, the attribute-table bytes and the directory
tables. -/
structure LayerState where
  fileTableBytes : List Nat
  attrTableBytes : List Nat
  dirTables : List (FileIdL × DirTable)
deriving DecidableEq, Repr

/-- Directory-table read for a LayerState. -/
def layerDirTableOf (ls : LayerState) (id : FileIdL) : DirTable :=
  match ls.dirTables.find? (fun p => p.1 = id) with
  | some p => p.2
  | none => []

/-- Directory-table write for a LayerState. -/
def layerSetDirTable (ls : LayerState) (id : FileIdL) (t : DirTable) :
    LayerState :=
  if (ls.dirTables.find? (fun p => p.1 = id)).isSome then
    { ls with
      dirTables := ls.dirTables.map fun p => if p.1 = id then (id, t) else p }
  else
    { ls with dirTables := ls.dirTables ++ [(id, t)] }

/-- UpperLayerBuilder::hard_link_files: the upper file table and attribute
table become hard links of the bottom (other) tables, hence byte-for-byte
the same contents; any previous upper table file is removed first. -/
def hardLinkFiles (upper other : LayerState) : LayerState :=
  { upper with
    fileTableBytes := other.fileTableBytes
    attrTableBytes := other.attrTableBytes }

/-- One loop iteration of fill_from_bottom_layer: a Left item copies the
lower entry into the upper directory table for
FileId::new(upper_id, right_parent.offset()); a Right or Both item inserts
the right entry with its file id rewritten to the upper layer id and, for a
directory, writes an empty directory table for the rewritten id.  Every
write is a directory-table write. -/
def fillStep (u : Nat) (ls : LayerState)
    (item : FileIdL × LeftRightL (String × DirectoryEntryDataL)) :
    LayerState :=
  match item.2 with
  | .left e =>
    let dirId := upperWriteDirId u item.1
    layerSetDirTable ls dirId
      (tableInsert (layerDirTableOf ls dirId) e.1 e.2).2
  | .right e | .both _ e =>
    let dirId := upperWriteDirId u item.1
    let d2 := rewriteToUpper u e.2
    let ls2 := layerSetDirTable ls dirId
      (tableInsert (layerDirTableOf ls dirId) e.1 d2).2
    if d2.kind = .directory then layerSetDirTable ls2 d2.file_id [] else ls2

/-- UpperLayerBuilder::fill_from_bottom_layer: hard-link the bottom tables,
then run the walker to completion, processing each yielded item.  The
walker stream is passed as the list of (right_parent, item) pairs it
yields. -/
def fillFromBottomLayer (upper other : LayerState) (u : Nat)
    (walk : List (FileIdL × LeftRightL (String × DirectoryEntryDataL))) :
    LayerState :=
  walk.foldl (fillStep u) (hardLinkFiles upper other)

theorem fillStep_preserves_tables (u : Nat) (ls : LayerState)
    (item : FileIdL × LeftRightL (String × DirectoryEntryDataL)) :
    (fillStep u ls item).fileTableBytes = ls.fileTableBytes
    ∧ (fillStep u ls item).attrTableBytes = ls.attrTableBytes := by
  have hset : ∀ (ls2 : LayerState) (id : FileIdL) (t : DirTable),
      (layerSetDirTable ls2 id t).fileTableBytes = ls2.fileTableBytes
      ∧ (layerSetDirTable ls2 id t).attrTableBytes = ls2.attrTableBytes := by
    intro ls2 id t
    unfold layerSetDirTable
    split <;> exact ⟨rfl, rfl⟩
  unfold fillStep
  rcases item with ⟨rp, it⟩
  cases it with
  | left e => exact hset _ _ _
  | right e =>
    simp only
    split
    · constructor
      · rw [(hset _ _ _).1, (hset _ _ _).1]
      · rw [(hset _ _ _).2, (hset _ _ _).2]
    · exact hset _ _ _
  | both e1 e2 =>
    simp only
    split
    · constructor
      · rw [(hset _ _ _).1, (hset _ _ _).1]
      · rw [(hset _ _ _).2, (hset _ _ _).2]
    · exact hset _ _ _

/-- CLAIM C2.  Building an upper layer hard-links the bottom layer file and
attribute tables and then only ever writes directory tables, so after
fill_from_bottom_layer runs (over any walker stream) the upper layer file
table and attribute table are byte-for-byte the bottom layer tables. -/
theorem upper_layer_tables_hard_linked
    (upper other : LayerState) (u : Nat)
    (walk : List (FileIdL × LeftRightL (String × DirectoryEntryDataL))) :
    (fillFromBottomLayer upper other u walk).fileTableBytes
        = other.fileTableBytes
    ∧ (fillFromBottomLayer upper other u walk).attrTableBytes
        = other.attrTableBytes := by
  unfold fillFromBottomLayer
  have hgen : ∀ (ws : List (FileIdL × LeftRightL (String × DirectoryEntryDataL)))
      (ls : LayerState),
      (ws.foldl (fillStep u) ls).fileTableBytes = ls.fileTableBytes
      ∧ (ws.foldl (fillStep u) ls).attrTableBytes = ls.attrTableBytes := by
    intro ws
    induction ws with
    | nil => exact fun ls => ⟨rfl, rfl⟩
    | cons w ws ih =>
      intro ls
      simp only [List.foldl_cons]
      constructor
      · rw [(ih _).1, (fillStep_preserves_tables u ls w).1]
      · rw [(ih _).2, (fillStep_preserves_tables u ls w).2]
  exact ⟨(hgen walk _).1, (hgen walk _).2⟩

/-- CLAIM C9.  The root of every bottom layer is FileId(layer_id, 0): the
first record inserted by BottomLayerBuilder::new receives exactly
FileId::root(LayerId::BOTTOM), so the assert in new always passes and the
built state holds the root as its single record; and ensure_path starts its
walk at FileId::root(LayerId::BOTTOM), so a root path resolves to the root
id in any state. -/
theorem bottom_layer_root_is_file_id_zero :
    (∀ time attrs data ty,
      (insertFile (emptyState time) ty attrs data).1
        = FileIdL.root bottomLayerId)
    ∧ (∀ time, newBuilder time
        = .ok ⟨[⟨.directory, ⟨0, 0o777, time⟩, .empty⟩],
               [(FileIdL.root bottomLayerId, [])], time⟩)
    ∧ (∀ st, ensurePath st ⟨[.rootDir]⟩
        = .ok (FileIdL.root bottomLayerId, st)) := by
  refine ⟨fun time attrs data ty => rfl, fun time => rfl, fun st => rfl⟩

end LayerFsModel

namespace FuseModel

/-- Errno, as carried by maelstrom_linux::Errno. -/
abbrev Errno := Nat

/-- EntryResponse as replied to a lookup. -/
structure EntryResponse where
  ttl : Nat
  ino : Nat
  generation : Nat
deriving DecidableEq, Repr

/-- AttrResponse as replied to a get_attr. -/
structure AttrResponse where
  ttl : Nat
  ino : Nat
deriving DecidableEq, Repr

/-- ReadResponse as replied to a read. -/
structure ReadResponse where
  data : List Nat
deriving DecidableEq, Repr

/-- One directory entry streamed by read_dir. -/
structure DirEntryF where
  ino : Nat
  offset : Int
  name : String
deriving DecidableEq, Repr

/-- FsMessage: the four operations fuse_mount forwards from the kernel queue
onto the channel (lib.rs lines 149-178), with their request payloads. -/
inductive FsMessage where
  | lookUp (parent : Nat) (name : String)
  | getAttr (ino : Nat)
  | readOp (ino : Nat) (fh : Nat) (offset : Int) (size : Nat) (flags : Int)
      (lockOwner : Option Nat)
  | readDir (ino : Nat) (fh : Nat) (offset : Int)
deriving DecidableEq, Repr

/-- A FuseFileSystem handler: the four async operations of the trait, each
returning an ErrnoResult. -/
structure FuseFileSystemL where
  look_up : Nat → String → Except Errno EntryResponse
  get_attr : Nat → Except Errno AttrResponse
  read : Nat → Nat → Int → Nat → Int → Option Nat → Except Errno ReadResponse
  read_dir : Nat → Nat → Int → Except Errno (List (Except Errno DirEntryF))

/-- One reply sent back for one message: the success payload or the errno
reported through reply.error. -/
inductive FuseReply where
  | entry (r : EntryResponse)
  | attr (r : AttrResponse)
  | data (r : ReadResponse)
  | dirEntries (rs : List (Except Errno DirEntryF))
  | errorReply (e : Errno)
deriving Repr

/-- handle_resp: a handler success is sent as the reply, a handler error is
sent as reply.error. -/
def handleResp {α : Type} (wrap : α → FuseReply) :
    Except Errno α → FuseReply
  | .ok resp => wrap resp
  | .error e => .errorReply e

/-- The dispatch fuse_mount_receiver performs for one dequeued message: each
FsMessage constructor is matched and the corresponding handler method is
invoked with the message fields, and its result becomes the reply. -/
def dispatchMessage (h : FuseFileSystemL) : FsMessage → FuseReply
  | .lookUp parent name => handleResp .entry (h.look_up parent name)
  | .getAttr ino => handleResp .attr (h.get_attr ino)
  | .readOp ino fh offset size flags lockOwner =>
    handleResp .data (h.read ino fh offset size flags lockOwner)
  | .readDir ino fh offset => handleResp .dirEntries (h.read_dir ino fh offset)

/-- fuse_mount_receiver: the single worker task loops on recv and handles
each message in turn until the channel closes (the while-let loop of
lib.rs lines 100-147), sending one reply per message. -/
def fuseMountReceiver (h : FuseFileSystemL) : List FsMessage → List FuseReply
  | [] => []
  | .lookUp parent name :: rest =>
    handleResp .entry (h.look_up parent name) :: fuseMountReceiver h rest
  | .getAttr ino :: rest =>
    handleResp .attr (h.get_attr ino) :: fuseMountReceiver h rest
  | .readOp ino fh offset size flags lockOwner :: rest =>
    handleResp .data (h.read ino fh offset size flags lockOwner)
      :: fuseMountReceiver h rest
  | .readDir ino fh offset :: rest =>
    handleResp .dirEntries (h.read_dir ino fh offset)
      :: fuseMountReceiver h rest

/-- The channel capacity fuse_mount passes to channel(...) in lib.rs line
20. -/
def fuseMountChannelCapacity : Nat := 1000

/-- The task layout fuse_mount builds: one bounded channel with the given
capacity, one sender thread and one receiver (worker) task. -/
structure FuseMountSetup where
  capacity : Nat
  receiverTasks : Nat

/-- fuse_mount: create the channel with capacity 1000 and spawn exactly one
receiver worker task. -/
def fuseMount : FuseMountSetup :=
  { capacity := fuseMountChannelCapacity, receiverTasks := 1 }

/-- CLAIM C8.  fuse_mount dispatches the four FUSE operations onto one
bounded channel of capacity exactly 1000 with a single worker task, and the
worker consumes the queue producing exactly one reply per message, each
reply coming from the matching handler method. -/
theorem fuse_mount_bounded_channel_single_worker :
    fuseMount.capacity = 1000
    ∧ fuseMount.receiverTasks = 1
    ∧ (∀ (h : FuseFileSystemL) (msgs : List FsMessage),
        fuseMountReceiver h msgs = msgs.map (dispatchMessage h))
    ∧ (∀ (h : FuseFileSystemL) (msgs : List FsMessage),
        (fuseMountReceiver h msgs).length = msgs.length) := by
  have hmap : ∀ (h : FuseFileSystemL) (msgs : List FsMessage),
      fuseMountReceiver h msgs = msgs.map (dispatchMessage h) := by
    intro h msgs
    induction msgs with
    | nil => rfl
    | cons m rest ih =>
      cases m <;> simp [fuseMountReceiver, dispatchMessage, ih]
  refine ⟨rfl, rfl, hmap, ?_⟩
  intro h msgs
  rw [hmap h msgs, List.length_map]

end FuseModel

namespace BrokerModel

/-- Hello, the first frame a peer sends (maelstrom-base/src/proto.rs lines
12-18): exactly four variants. -/
inductive Hello where
  | client
  | worker (slots : Nat)
  | artifactPusher
  | artifactFetcher
deriving DecidableEq, Repr

/-- What the per-connection task spawned by listener_main does for one
classified peer (meticulous-broker/src/lib.rs lines 158-204): for Client and
Worker it runs socket_main, which spawns one socket reader task and one
socket writer task; for the two artifact roles the match arm is
todo!("artifact handling not yet implemented"), so the task panics without
serving any artifact sub-protocol. -/
inductive ListenerAction where
  | spawnClientSocket (readerTasks writerTasks : Nat)
  | spawnWorkerSocket (slots readerTasks writerTasks : Nat)
  | unimplementedTodo
deriving DecidableEq, Repr

/-- The classification match of listener_main on the received Hello frame.
The artifact variants of the Hello enum correspond to the artifact match
arms of listener_main, which are todo!. -/
def listenerDispatch : Hello → ListenerAction
  | .client => .spawnClientSocket 1 1
  | .worker slots => .spawnWorkerSocket slots 1 1
  | .artifactPusher => .unimplementedTodo
  | .artifactFetcher => .unimplementedTodo

/-- Counterexample to CLAIM C3 as stated: the claim says the two artifact
roles are handled by serving the artifact transfer sub-protocols, but the
listener reaches todo! for both of them, so neither artifact role is
served. -/
theorem listener_artifact_roles_hit_todo :
    listenerDispatch .artifactPusher = .unimplementedTodo
    ∧ listenerDispatch .artifactFetcher = .unimplementedTodo
    ∧ ListenerAction.unimplementedTodo ≠ .spawnClientSocket 1 1
    ∧ ListenerAction.unimplementedTodo ≠ .spawnWorkerSocket 0 1 1 := by
  refine ⟨rfl, rfl, ?_, ?_⟩ <;> intro h <;> cases h

/-- CLAIM C3 (amended).  After reading the Hello frame the broker classifies
the peer into exactly one of the four Hello roles; a Client gets reader and
writer socket tasks, a Worker{slots} gets reader and writer socket tasks
with its slot count recorded, and the two artifact roles are not served:
their match arms reach todo!("artifact handling not yet implemented"). -/
theorem listener_classifies_into_four_roles :
    (∀ h : Hello, h = .client ∨ (∃ s, h = .worker s)
      ∨ h = .artifactPusher ∨ h = .artifactFetcher)
    ∧ listenerDispatch .client = .spawnClientSocket 1 1
    ∧ (∀ s, listenerDispatch (.worker s) = .spawnWorkerSocket s 1 1)
    ∧ listenerDispatch .artifactPusher = .unimplementedTodo
    ∧ listenerDispatch .artifactFetcher = .unimplementedTodo := by
  refine ⟨?_, rfl, fun s => rfl, rfl, rfl⟩
  intro h
  cases h with
  | client => exact Or.inl rfl
  | worker s => exact Or.inr (Or.inl ⟨s, rfl⟩)
  | artifactPusher => exact Or.inr (Or.inr (Or.inl rfl))
  | artifactFetcher => exact Or.inr (Or.inr (Or.inr rfl))

end BrokerModel

namespace ProtoConvModel

/-- maelstrom_base::NonEmpty: a head element plus a possibly empty tail. -/
structure NonEmptyL (α : Type) where
  head : α
  tail : List α
deriving DecidableEq, Repr

/-- NonEmpty::from_vec: none for the empty vector, otherwise the head and
tail. -/
def nonEmptyFromVec {α : Type} : List α → Option (NonEmptyL α)
  | [] => none
  | x :: xs => some ⟨x, xs⟩

/-- TryFromProtoBuf for NonEmpty (proto_buf_conv.rs lines 419-430): convert
every element, collect the results, then NonEmpty::from_vec, reporting
"malformed NonEmpty" when from_vec yields None. -/
def tryFromProtoBufNonEmpty {β α : Type} (conv : β → Except String α)
    (v : List β) : Except String (NonEmptyL α) :=
  match v.mapM conv with
  | .error e => .error e
  | .ok l =>
    match nonEmptyFromVec l with
    | some res => .ok res
    | none => .error "malformed NonEmpty"

/-- A protobuf Layer as carried in the layers field of a JobSpec message:
a digest plus an artifact-type tag. -/
structure LayerProto where
  digest : List Nat
  kind : Nat
deriving DecidableEq, Repr

/-- The element conversion applied to each protobuf layer. -/
def convLayer (l : LayerProto) : Except String (List Nat × Nat) :=
  .ok (l.digest, l.kind)

/-- The wire form of a JobSpec as far as the layers invariant is concerned:
the layers field is a plain repeated field, i.e. a possibly empty list. -/
structure JobSpecProto where
  program : String
  arguments : List String
  layers : List LayerProto
deriving DecidableEq, Repr

/-- A decoded JobSpec: its layers are a NonEmpty list. -/
structure JobSpecL where
  program : String
  arguments : List String
  layers : NonEmptyL (List Nat × Nat)
deriving DecidableEq, Repr

/-- Modelled from the spec: the derived TryFromProtoBuf for JobSpec (the
maelstrom-macro derive named in maelstrom-client-base/build.rs line 39 is
not among the given sources) converts the message field by field and fails
when any field conversion fails; the layers field goes through the NonEmpty
conversion. -/
def tryFromProtoBufJobSpec (p : JobSpecProto) : Except String JobSpecL :=
  match tryFromProtoBufNonEmpty convLayer p.layers with
  | .error e => .error e
  | .ok layers => .ok ⟨p.program, p.arguments, layers⟩

/-- CLAIM C4.  A JobSpec whose layers list is empty fails to decode: the
NonEmpty conversion of the empty vector reports the "malformed NonEmpty"
error (NonEmpty::from_vec of the empty vector is None), so the JobSpec
conversion fails and the request never reaches the scheduler. -/
theorem zero_layer_job_rejected_at_decode :
    (∀ (β α : Type) (conv : β → Except String α),
      tryFromProtoBufNonEmpty conv ([] : List β) = .error "malformed NonEmpty")
    ∧ (∀ p : JobSpecProto, p.layers = [] →
      tryFromProtoBufJobSpec p = .error "malformed NonEmpty") := by
  have hbase : ∀ (β α : Type) (conv : β → Except String α),
      tryFromProtoBufNonEmpty conv ([] : List β)
        = .error "malformed NonEmpty" := by
    intro β α conv
    rfl
  refine ⟨hbase, ?_⟩
  intro p hp
  unfold tryFromProtoBufJobSpec
  rw [hp, hbase]

/-- Witness for CLAIM C4: a concrete JobSpec message with no layers fails to
decode. -/
theorem zero_layer_job_rejected_at_decode_witness :
    (JobSpecProto.layers ⟨"/bin/true", [], []⟩ = [])
    ∧ tryFromProtoBufJobSpec ⟨"/bin/true", [], []⟩
        = .error "malformed NonEmpty" := by
  exact ⟨rfl, zero_layer_job_rejected_at_decode.2 ⟨"/bin/true", [], []⟩ rfl⟩

end ProtoConvModel

namespace ImageNameModel

/-!
Embedding of crates/maelstrom-container/src/image_name.rs.  Strings are
modelled as List Char.  The combine parsers are modelled as functions from
the remaining input to a result that is either a value plus the rest of the
input, a parse failure, or a panic; a panic models the
parse::<u16>().unwrap() inside the port parser, which aborts the whole
parse, and it propagates through every combinator (attempt does not catch
an unwind).  Because the whole grammar is always run with skip(eof()) and
every choice alternative is wrapped in attempt, plain backtracking failure
is equivalent to the combine consumed-failure discipline for whole-input
parses, except inside a sequence, where a consumed failure aborts; the two
optional sequences of the grammar (tag and reference) are therefore
modelled as aborting when their leading token was consumed and their body
fails, exactly as combine does.  combine's alpha_num accepts Unicode
alphanumerics; it is modelled by its ASCII restriction, which covers every
character class distinction the grammar draws. -/

/-- Result of running one parser: value and remaining input, failure, or a
panic that aborts the whole parse. -/
inductive PRes (α : Type) where
  | ok (a : α) (rest : List Char)
  | fail
  | panic
deriving DecidableEq, Repr

/-- Final outcome of parse_str!: the value (all input consumed), a parse
error, or a process panic. -/
inductive ParseOutcome (α : Type) where
  | ok (a : α)
  | fail
  | panic
deriving DecidableEq, Repr

/-- many1(satisfy p): the maximal nonempty run of characters satisfying
p. -/
def takeWhile1 (p : Char → Bool) (l : List Char) : PRes (List Char) :=
  match l.takeWhile p with
  | [] => .fail
  | c :: cs => .ok (c :: cs) (l.dropWhile p)

/-- Whether the input begins with the given literal (the string parser). -/
def pStartsWith : List Char → List Char → Bool
  | [], _ => true
  | _ :: _, [] => false
  | p :: ps, c :: cs => p = c && pStartsWith ps cs

/-- The character class of tag_or_name(): alpha_num | _ | . | - . -/
def tagNameChar (c : Char) : Bool :=
  c.isAlphanum || c = '_' || c = '.' || c = '-'

/-- The character class of digest(): alpha_num | : . -/
def digestChar (c : Char) : Bool :=
  c.isAlphanum || c = ':'

/-- The character class of not_hostname(): anything but . / @ : . -/
def notHostnameChar (c : Char) : Bool :=
  !(c = '.' || c = '/' || c = '@' || c = ':')

/-- The character class of hostname(): anything but / @ : . -/
def hostnameChar (c : Char) : Bool :=
  !(c = '/' || c = '@' || c = ':')

/-- The numeric value of a digit string, most significant first. -/
def digitsToNat (l : List Char) : Nat :=
  l.foldl (fun acc c => acc * 10 + (c.toNat - 48)) 0

/-- One decimal digit character. -/
def digitChar : Nat → Char
  | 0 => '0'
  | 1 => '1'
  | 2 => '2'
  | 3 => '3'
  | 4 => '4'
  | 5 => '5'
  | 6 => '6'
  | 7 => '7'
  | 8 => '8'
  | 9 => '9'
  | _ => '0'

/-- Decimal representation of a number, as the u16 Display produces it. -/
def natToDigits (n : Nat) : List Char :=
  if _h : n < 10 then [digitChar n]
  else natToDigits (n / 10) ++ [digitChar (n % 10)]
decreasing_by exact Nat.div_lt_self (by omega) (by omega)

/-- Host, image_name.rs lines 32-36. -/
inductive HostL where
  | dockerIo (library : Option (List Char))
  | other (name : List Char) (port : Option Nat)
deriving DecidableEq, Repr

/-- DockerReference, image_name.rs lines 109-115. -/
structure DockerReferenceL where
  host : HostL
  name : List Char
  tag : Option (List Char)
  digest : Option (List Char)
deriving DecidableEq, Repr

/-- LocalPath, image_name.rs lines 443-447; the path field carries the raw
characters of the Utf8PathBuf. -/
structure LocalPathL where
  path : List Char
  reference : Option (List Char)
deriving DecidableEq, Repr

/-- ImageName, image_name.rs lines 502-507. -/
inductive ImageNameL where
  | docker (r : DockerReferenceL)
  | oci (p : LocalPathL)
  | ociArchive (p : LocalPathL)
deriving DecidableEq, Repr

/-- The first Host alternative: not_followed_by(string("localhost/")), a
run of not-hostname characters, then a slash: a docker.io library. -/
def hostBranch1 (input : List Char) : PRes HostL :=
  if pStartsWith ("localhost/".data) input then .fail
  else
    match takeWhile1 notHostnameChar input with
    | .panic => .panic
    | .fail => .fail
    | .ok r rest =>
      match rest with
      | [] => .fail
      | c :: rest2 => if c = '/' then .ok (.dockerIo (some r)) rest2 else .fail

/-- The second Host alternative: a hostname run then a slash. -/
def hostBranch2 (input : List Char) : PRes HostL :=
  match takeWhile1 hostnameChar input with
  | .panic => .panic
  | .fail => .fail
  | .ok r rest =>
    match rest with
    | [] => .fail
    | c :: rest2 => if c = '/' then .ok (.other r none) rest2 else .fail

/-- count_min_max(1, 5, digit()).map(parse::<u16>().unwrap()): up to five
digits, at least one, and a panic when the value overflows u16. -/
def portParser (input : List Char) : PRes Nat :=
  match (input.takeWhile Char.isDigit).take 5 with
  | [] => .fail
  | d :: ds =>
    let n := digitsToNat (d :: ds)
    if n ≤ 65535 then .ok n (input.drop (d :: ds).length)
    else .panic

/-- The third Host alternative: hostname, colon, port, slash. -/
def hostBranch3 (input : List Char) : PRes HostL :=
  match takeWhile1 hostnameChar input with
  | .panic => .panic
  | .fail => .fail
  | .ok r rest =>
    match rest with
    | [] => .fail
    | c :: rest2 =>
      if c = ':' then
        match portParser rest2 with
        | .panic => .panic
        | .fail => .fail
        | .ok p rest3 =>
          match rest3 with
          | [] => .fail
          | c2 :: rest4 =>
            if c2 = '/' then .ok (.other r (some p)) rest4 else .fail
      else .fail

/-- Host::parser: optional(attempt(choice((b1, b2, b3)))) with the DockerIo
default when no alternative matches. -/
def hostParser (input : List Char) : PRes HostL :=
  match hostBranch1 input with
  | .ok h rest => .ok h rest
  | .panic => .panic
  | .fail =>
    match hostBranch2 input with
    | .ok h rest => .ok h rest
    | .panic => .panic
    | .fail =>
      match hostBranch3 input with
      | .ok h rest => .ok h rest
      | .panic => .panic
      | .fail => .ok (.dockerIo none) input

/-- DockerReference::parser: host, name (many1 of tag_or_name runs over one
character class, i.e. one maximal run), an optional colon-tag and an
optional at-digest; as in combine, an optional whose leading token was
consumed but whose body fails is a failure of the whole sequence. -/
def dockerRefParser (input : List Char) : PRes DockerReferenceL :=
  match hostParser input with
  | .panic => .panic
  | .fail => .fail
  | .ok host rest1 =>
    match takeWhile1 tagNameChar rest1 with
    | .panic => .panic
    | .fail => .fail
    | .ok name rest2 =>
      match rest2 with
      | [] => .ok ⟨host, name, none, none⟩ []
      | c :: r =>
        if c = ':' then
          match takeWhile1 tagNameChar r with
          | .panic => .panic
          | .fail => .fail
          | .ok t rest3 =>
            match rest3 with
            | [] => .ok ⟨host, name, some t, none⟩ []
            | c2 :: rd =>
              if c2 = '@' then
                match takeWhile1 digestChar rd with
                | .panic => .panic
                | .fail => .fail
                | .ok d rest4 => .ok ⟨host, name, some t, some d⟩ rest4
              else .ok ⟨host, name, some t, none⟩ (c2 :: rd)
        else if c = '@' then
          match takeWhile1 digestChar r with
          | .panic => .panic
          | .fail => .fail
          | .ok d rest4 => .ok ⟨host, name, none, some d⟩ rest4
        else .ok ⟨host, name, none, none⟩ (c :: r)

/-- LocalPath::parser: a nonempty colon-free path, then optionally a colon
and the nonempty remainder of the input as the reference. -/
def localPathParser (input : List Char) : PRes LocalPathL :=
  match takeWhile1 (fun c => !(c = ':')) input with
  | .panic => .panic
  | .fail => .fail
  | .ok path rest =>
    match rest with
    | [] => .ok ⟨path, none⟩ []
    | c :: r =>
      if c = ':' then
        match r with
        | [] => .fail
        | c2 :: cs => .ok ⟨path, some (c2 :: cs)⟩ []
      else .ok ⟨path, none⟩ (c :: r)

/-- The scheme literal of the Docker alternative. -/
def dockerPrefix : List Char := "docker://".data

/-- The scheme literal of the Oci alternative. -/
def ociPrefix : List Char := "oci:".data

/-- The scheme literal of the OciArchive alternative. -/
def ociArchivePrefix : List Char := "oci-archive:".data

/-- Map a parse result. -/
def mapPRes {α β : Type} (f : α → β) : PRes α → PRes β
  | .ok a rest => .ok (f a) rest
  | .fail => .fail
  | .panic => .panic

/-- ImageName::parser: the attempted choice over the three schemes.  The
three scheme literals are mutually non-prefixing on any given input, so the
attempted choice is equivalent to testing the literals in order. -/
def imageNameParserRaw (input : List Char) : PRes ImageNameL :=
  if pStartsWith dockerPrefix input then
    mapPRes .docker (dockerRefParser (input.drop dockerPrefix.length))
  else if pStartsWith ociPrefix input then
    mapPRes .oci (localPathParser (input.drop ociPrefix.length))
  else if pStartsWith ociArchivePrefix input then
    mapPRes .ociArchive (localPathParser (input.drop ociArchivePrefix.length))
  else .fail

/-- parse_str!: run the parser followed by eof. -/
def parseImage (input : List Char) : ParseOutcome ImageNameL :=
  match imageNameParserRaw input with
  | .ok v [] => .ok v
  | .ok _ (_ :: _) => .fail
  | .fail => .fail
  | .panic => .panic

/-- Display for Host, image_name.rs lines 44-58. -/
def displayHost : HostL → List Char
  | .dockerIo none => []
  | .dockerIo (some lib) => lib ++ ['/']
  | .other name none => name ++ ['/']
  | .other name (some p) => name ++ [':'] ++ natToDigits p ++ ['/']

/-- The displayed tag part of a DockerReference. -/
def displayTagPart : Option (List Char) → List Char
  | none => []
  | some t => ':' :: t

/-- The displayed digest part of a DockerReference. -/
def displayDigestPart : Option (List Char) → List Char
  | none => []
  | some d => '@' :: d

/-- Display for DockerReference, image_name.rs lines 117-128. -/
def displayDockerRef (r : DockerReferenceL) : List Char :=
  displayHost r.host ++ r.name ++ displayTagPart r.tag
    ++ displayDigestPart r.digest

/-- The displayed reference part of a LocalPath. -/
def displayRefPart : Option (List Char) → List Char
  | none => []
  | some r => ':' :: r

/-- Display for LocalPath, image_name.rs lines 449-457. -/
def displayLocalPath (p : LocalPathL) : List Char :=
  p.path ++ displayRefPart p.reference

/-- Display for ImageName, image_name.rs lines 509-517: note the docker
scheme is printed as docker:// but oci and oci-archive are printed with ://
although their parsers consume only oci: and oci-archive: . -/
def displayImageName : ImageNameL → List Char
  | .docker r => "docker://".data ++ displayDockerRef r
  | .oci p => "oci://".data ++ displayLocalPath p
  | .ociArchive p => "oci-archive://".data ++ displayLocalPath p

/-- Split a raw path on slashes. -/
def splitOnSlash : List Char → List (List Char)
  | [] => [[]]
  | c :: rest =>
    if c = '/' then [] :: splitOnSlash rest
    else
      match splitOnSlash rest with
      | seg :: others => (c :: seg) :: others
      | [] => [[c]]

/-- One component of a std::path::Path. -/
inductive PathCompR where
  | rootDir
  | curDir
  | parentDir
  | normal (seg : List Char)
deriving DecidableEq, Repr

/-- A path body segment kept by the components iterator: nonempty and not
the . segment. -/
def segKeep (seg : List Char) : Bool :=
  !(seg.isEmpty || seg == ['.'])

/-- A kept segment as a component: .. is ParentDir, anything else Normal. -/
def seg2comp (seg : List Char) : PathCompR :=
  if seg == ['.', '.'] then .parentDir else .normal seg

/-- The non-root components of a raw path. -/
def bodyComps (s : List Char) : List PathCompR :=
  ((splitOnSlash s).filter segKeep).map seg2comp

/-- Path::components of a unix path: a leading slash yields RootDir, a
leading lone . with no root yields CurDir, then the kept body segments.
This models the components-based equality of std::path::Path, which camino
Utf8PathBuf equality and hence the derived LocalPath equality use. -/
def pathComponents (s : List Char) : List PathCompR :=
  match s with
  | '/' :: _ => .rootDir :: bodyComps s
  | '.' :: rest =>
    if rest = [] ∨ rest.head? = some '/' then .curDir :: bodyComps s
    else bodyComps s
  | _ => bodyComps s

/-- Equality of raw paths as std::path::Path (and camino, and the derived
PartialEq on LocalPath) compares them: by components. -/
def pathEqR (a b : List Char) : Prop :=
  pathComponents a = pathComponents b

instance (a b : List Char) : Decidable (pathEqR a b) := by
  unfold pathEqR
  infer_instance

/-- Equality of LocalPath values as the derived Rust PartialEq compares
them: paths by components, references structurally. -/
def localPathEqR (a b : LocalPathL) : Prop :=
  pathEqR a.path b.path ∧ a.reference = b.reference

/-- Equality of ImageName values as the derived Rust PartialEq compares
them. -/
def imageNameEqR : ImageNameL → ImageNameL → Prop
  | .docker a, .docker b => a = b
  | .oci a, .oci b => localPathEqR a b
  | .ociArchive a, .ociArchive b => localPathEqR a b
  | _, _ => False

/-- The head of the rest, if any, fails the predicate. -/
def headNot (p : Char → Bool) (t : List Char) : Prop :=
  ∀ c, t.head? = some c → p c = false

theorem headNot_nil (p : Char → Bool) : headNot p [] := by
  intro c h
  cases h

theorem headNot_cons {p : Char → Bool} {c : Char} {t : List Char}
    (h : p c = false) : headNot p (c :: t) := by
  intro x hx
  cases hx
  exact h

theorem takeWhile_append_of_all {p : Char → Bool} :
    ∀ (s t : List Char), (∀ c ∈ s, p c = true) → headNot p t →
    (s ++ t).takeWhile p = s ∧ (s ++ t).dropWhile p = t := by
  intro s
  induction s with
  | nil =>
    intro t _ ht
    constructor
    · cases t with
      | nil => rfl
      | cons c cs =>
        simp [List.nil_append, List.takeWhile_cons, ht c rfl]
    · cases t with
      | nil => rfl
      | cons c cs =>
        simp [List.nil_append, List.dropWhile_cons, ht c rfl]
  | cons c s ih =>
    intro t hall ht
    have hc : p c = true := hall c (List.mem_cons_self c s)
    have hrest := ih t (fun x hx => hall x (List.mem_cons_of_mem c hx)) ht
    constructor
    · simp [List.cons_append, List.takeWhile_cons, hc, hrest.1]
    · simp [List.cons_append, List.dropWhile_cons, hc, hrest.2]

theorem takeWhile_append_of_blocked {p : Char → Bool} :
    ∀ (s t : List Char), s.dropWhile p ≠ [] →
    (s ++ t).takeWhile p = s.takeWhile p
    ∧ (s ++ t).dropWhile p = s.dropWhile p ++ t := by
  intro s
  induction s with
  | nil =>
    intro t hs
    exact absurd rfl hs
  | cons c s ih =>
    intro t hs
    by_cases hc : p c = true
    · rw [List.dropWhile_cons, if_pos hc] at hs
      have hrest := ih t hs
      constructor
      · simp [List.cons_append, List.takeWhile_cons, hc, hrest.1]
      · simp [List.cons_append, List.dropWhile_cons, hc, hrest.2]
    · have hc2 : p c = false := by
        cases h : p c
        · rfl
        · exact absurd h hc
      constructor
      · simp [List.cons_append, List.takeWhile_cons, hc2]
      · simp [List.cons_append, List.dropWhile_cons, hc2]

theorem takeWhile1_ok_of {p : Char → Bool} {s t : List Char}
    (hs : s ≠ []) (hall : ∀ c ∈ s, p c = true) (ht : headNot p t) :
    takeWhile1 p (s ++ t) = .ok s t := by
  have h := takeWhile_append_of_all s t hall ht
  unfold takeWhile1
  rw [h.1, h.2]
  cases s with
  | nil => exact absurd rfl hs
  | cons c cs => rfl

theorem head_dropWhile_false {p : Char → Bool} :
    ∀ (l : List Char), headNot p (l.dropWhile p) := by
  intro l
  induction l with
  | nil => exact headNot_nil p
  | cons c cs ih =>
    rw [List.dropWhile_cons]
    by_cases hc : p c = true
    · rw [if_pos hc]
      exact ih
    · have hc2 : p c = false := by
        cases h : p c
        · rfl
        · exact absurd h hc
      rw [if_neg hc]
      exact headNot_cons hc2

theorem takeWhile1_ok_inv {p : Char → Bool} {l run rest : List Char}
    (h : takeWhile1 p l = .ok run rest) :
    run ≠ [] ∧ (∀ c ∈ run, p c = true) ∧ l = run ++ rest
    ∧ headNot p rest := by
  unfold takeWhile1 at h
  cases htw : l.takeWhile p with
  | nil =>
    rw [htw] at h
    cases h
  | cons c cs =>
    rw [htw] at h
    cases h
    refine ⟨by simp, ?_, ?_, head_dropWhile_false l⟩
    · intro x hx
      exact List.mem_takeWhile_imp (htw ▸ hx)
    · rw [← htw, List.takeWhile_append_dropWhile]

theorem pStartsWith_append (pat x : List Char) :
    pStartsWith pat (pat ++ x) = true := by
  induction pat with
  | nil => rfl
  | cons c cs ih => simp [pStartsWith, ih]

theorem pStartsWith_prefix :
    ∀ (pat l : List Char), pStartsWith pat l = true →
    ∃ rest, l = pat ++ rest := by
  intro pat
  induction pat with
  | nil =>
    intro l _
    exact ⟨l, rfl⟩
  | cons c cs ih =>
    intro l h
    cases l with
    | nil => cases h
    | cons x xs =>
      unfold pStartsWith at h
      rw [Bool.and_eq_true] at h
      obtain ⟨rest, hrest⟩ := ih xs h.2
      have hx : c = x := by simpa using h.1
      exact ⟨rest, by rw [hrest, hx]; rfl⟩

theorem pStartsWith_slash_unique :
    ∀ (pat a x : List Char), ('/' : Char) ∉ pat → ('/' : Char) ∉ a →
    pStartsWith (pat ++ ['/']) (a ++ '/' :: x) = true → a = pat := by
  intro pat
  induction pat with
  | nil =>
    intro a x _ ha h
    cases a with
    | nil => rfl
    | cons c cs =>
      simp only [List.nil_append, List.cons_append] at h
      unfold pStartsWith at h
      rw [Bool.and_eq_true] at h
      have : ('/' : Char) = c := by simpa using h.1
      exact absurd (this ▸ List.mem_cons_self c cs) ha
  | cons c cs ih =>
    intro a x hpat ha h
    cases a with
    | nil =>
      simp only [List.cons_append, List.nil_append] at h
      unfold pStartsWith at h
      rw [Bool.and_eq_true] at h
      have : c = '/' := by simpa using h.1
      exact absurd (this ▸ List.mem_cons_self c cs) hpat
    | cons b bs =>
      simp only [List.cons_append] at h
      unfold pStartsWith at h
      rw [Bool.and_eq_true] at h
      have hcb : c = b := by simpa using h.1
      have htail := ih bs x (fun hm => hpat (List.mem_cons_of_mem c hm))
        (fun hm => ha (List.mem_cons_of_mem b hm)) h.2
      rw [hcb, htail]

theorem digitsToNat_append_digit (l : List Char) (c : Char) :
    digitsToNat (l ++ [c]) = 10 * digitsToNat l + (c.toNat - 48) := by
  unfold digitsToNat
  rw [List.foldl_append]
  simp [Nat.mul_comm]

theorem digitChar_toNat {d : Nat} (h : d < 10) :
    (digitChar d).toNat - 48 = d := by
  interval_cases d <;> decide

theorem digitChar_isDigit {d : Nat} (h : d < 10) :
    (digitChar d).isDigit = true := by
  interval_cases d <;> decide

theorem natToDigits_ne_nil (n : Nat) : natToDigits n ≠ [] := by
  unfold natToDigits
  split
  · simp
  · simp

theorem natToDigits_all_digit (n : Nat) :
    ∀ c ∈ natToDigits n, c.isDigit = true := by
  induction n using Nat.strong_induction_on with
  | _ n ih =>
    unfold natToDigits
    split
    case isTrue h =>
      intro c hc
      simp only [List.mem_singleton] at hc
      rw [hc]
      exact digitChar_isDigit h
    case isFalse h =>
      intro c hc
      rcases List.mem_append.1 hc with hm | hm
      · exact ih (n / 10) (Nat.div_lt_self (by omega) (by omega)) c hm
      · simp only [List.mem_singleton] at hm
        rw [hm]
        exact digitChar_isDigit (Nat.mod_lt n (by omega))

theorem digitsToNat_natToDigits (n : Nat) :
    digitsToNat (natToDigits n) = n := by
  induction n using Nat.strong_induction_on with
  | _ n ih =>
    unfold natToDigits
    split
    case isTrue h =>
      show digitsToNat [digitChar n] = n
      unfold digitsToNat
      simp [digitChar_toNat h]
    case isFalse h =>
      rw [digitsToNat_append_digit,
        ih (n / 10) (Nat.div_lt_self (by omega) (by omega)),
        digitChar_toNat (Nat.mod_lt n (by omega))]
      omega

theorem natToDigits_length_le :
    ∀ (k n : Nat), n < 10 ^ k → 1 ≤ k → (natToDigits n).length ≤ k := by
  intro k
  induction k with
  | zero =>
    intro n _ hk
    omega
  | succ k ih =>
    intro n hn _
    unfold natToDigits
    split
    case isTrue h => simp
    case isFalse h =>
      have hk1 : 1 ≤ k := by
        by_contra hk0
        have : k = 0 := by omega
        subst this
        simp [pow_succ] at hn
        omega
      have hdiv : n / 10 < 10 ^ k := by
        rw [Nat.div_lt_iff_lt_mul (by omega)]
        calc n < 10 ^ (k + 1) := hn
        _ = 10 ^ k * 10 := by rw [pow_succ]
      have := ih (n / 10) hdiv hk1
      simp only [List.length_append, List.length_singleton]
      omega

theorem tagName_imp_hostname {c : Char} (h : tagNameChar c = true) :
    hostnameChar c = true := by
  have h1 : c ≠ '/' := by rintro rfl; exact absurd h (by decide)
  have h2 : c ≠ '@' := by rintro rfl; exact absurd h (by decide)
  have h3 : c ≠ ':' := by rintro rfl; exact absurd h (by decide)
  unfold hostnameChar
  simp [h1, h2, h3]

theorem notHostname_false_hostname_true {d : Char}
    (h1 : notHostnameChar d = false) (h2 : hostnameChar d = true) :
    d = '.' := by
  by_cases hd : d = '.'
  · exact hd
  · exfalso
    have hs : d ≠ '/' := by rintro rfl; exact absurd h2 (by decide)
    have ha : d ≠ '@' := by rintro rfl; exact absurd h2 (by decide)
    have hc : d ≠ ':' := by rintro rfl; exact absurd h2 (by decide)
    unfold notHostnameChar at h1
    simp [hd, hs, ha, hc] at h1

theorem dropWhile_head_not_slash_of_dot {name : List Char}
    (hall : ∀ c ∈ name, hostnameChar c = true) (hdot : ('.' : Char) ∈ name)
    (t : List Char) :
    ∀ r, (name ++ t).dropWhile notHostnameChar ≠ '/' :: r := by
  intro r hcon
  have hblock : name.dropWhile notHostnameChar ≠ [] := by
    intro hnil
    have hdotsat := List.dropWhile_eq_nil_iff.1 hnil '.' hdot
    exact absurd hdotsat (by decide)
  rw [(takeWhile_append_of_blocked name t hblock).2] at hcon
  cases hd : name.dropWhile notHostnameChar with
  | nil => exact hblock hd
  | cons d ds =>
    rw [hd] at hcon
    have hdfalse : notHostnameChar d = false :=
      head_dropWhile_false name d (by rw [hd]; rfl)
    have hdmem : d ∈ name := by
      have hin : d ∈ name.dropWhile notHostnameChar := by
        rw [hd]
        exact List.mem_cons_self d ds
      have hsplit : name.takeWhile notHostnameChar
          ++ name.dropWhile notHostnameChar = name :=
        List.takeWhile_append_dropWhile notHostnameChar name
      rw [← hsplit]
      exact List.mem_append_right _ hin
    have hddot : d = '.' :=
      notHostname_false_hostname_true hdfalse (hall d hdmem)
    have : d = '/' := (List.cons.inj hcon).1
    rw [hddot] at this
    exact absurd this (by decide)

theorem dropWhile_head_not_slash_of_stop {name : List Char}
    (hall : ∀ c ∈ name, hostnameChar c = true) {c0 : Char}
    (hc0 : notHostnameChar c0 = false) (hc0s : c0 ≠ '/') (t : List Char) :
    ∀ r, (name ++ c0 :: t).dropWhile notHostnameChar ≠ '/' :: r := by
  intro r hcon
  by_cases hblock : name.dropWhile notHostnameChar = []
  · have hallN := List.dropWhile_eq_nil_iff.1 hblock
    rw [(takeWhile_append_of_all name (c0 :: t)
      (fun c hc => hallN c hc) (headNot_cons hc0)).2] at hcon
    exact absurd (List.cons.inj hcon).1 hc0s
  · rw [(takeWhile_append_of_blocked name (c0 :: t) hblock).2] at hcon
    cases hd : name.dropWhile notHostnameChar with
    | nil => exact hblock hd
    | cons d ds =>
      rw [hd] at hcon
      have hdfalse : notHostnameChar d = false :=
        head_dropWhile_false name d (by rw [hd]; rfl)
      have hdmem : d ∈ name := by
        have hin : d ∈ name.dropWhile notHostnameChar := by
          rw [hd]
          exact List.mem_cons_self d ds
        have hsplit : name.takeWhile notHostnameChar
            ++ name.dropWhile notHostnameChar = name :=
          List.takeWhile_append_dropWhile notHostnameChar name
        rw [← hsplit]
        exact List.mem_append_right _ hin
      have hddot : d = '.' :=
        notHostname_false_hostname_true hdfalse (hall d hdmem)
      have : d = '/' := (List.cons.inj hcon).1
      rw [hddot] at this
      exact absurd this (by decide)

theorem hostBranch1_fail_of (input : List Char)
    (h : ∀ r, input.dropWhile notHostnameChar ≠ '/' :: r) :
    hostBranch1 input = .fail := by
  unfold hostBranch1
  by_cases hsw : pStartsWith ("localhost/".data) input = true
  · rw [if_pos hsw]
  · rw [if_neg hsw]
    unfold takeWhile1
    cases htw : input.takeWhile notHostnameChar with
    | nil => rfl
    | cons c cs =>
      simp only
      cases hdw : input.dropWhile notHostnameChar with
      | nil => rfl
      | cons d ds =>
        have hd : d ≠ '/' := by
          intro hdeq
          exact h ds (by rw [hdw, hdeq])
        simp only [if_neg hd]

theorem hostParser_dockerIo_some (lib rest : List Char)
    (hne : lib ≠ []) (hall : ∀ c ∈ lib, notHostnameChar c = true)
    (hnl : lib ≠ "localhost".data) :
    hostParser (lib ++ '/' :: rest) = .ok (.dockerIo (some lib)) rest := by
  have hb1 : hostBranch1 (lib ++ '/' :: rest)
      = .ok (.dockerIo (some lib)) rest := by
    unfold hostBranch1
    have hslash : ('/' : Char) ∉ lib := by
      intro hm
      exact absurd (hall '/' hm) (by decide)
    have hsw : ¬ pStartsWith ("localhost/".data) (lib ++ '/' :: rest)
        = true := by
      intro hc
      have heq : ("localhost/".data : List Char)
          = "localhost".data ++ ['/'] := by decide
      rw [heq] at hc
      exact hnl (pStartsWith_slash_unique "localhost".data lib rest
        (by decide) hslash hc)
    rw [if_neg hsw,
      takeWhile1_ok_of hne hall (headNot_cons (by decide))]
    simp
  unfold hostParser
  rw [hb1]

theorem hostParser_other_none (name rest : List Char)
    (hne : name ≠ []) (hall : ∀ c ∈ name, hostnameChar c = true)
    (hdot : ('.' : Char) ∈ name ∨ name = "localhost".data) :
    hostParser (name ++ '/' :: rest) = .ok (.other name none) rest := by
  have hb1 : hostBranch1 (name ++ '/' :: rest) = .fail := by
    rcases hdot with hdot | hloc
    · exact hostBranch1_fail_of _
        (dropWhile_head_not_slash_of_dot hall hdot ('/' :: rest))
    · subst hloc
      unfold hostBranch1
      have heq : ("localhost".data ++ '/' :: rest : List Char)
          = "localhost/".data ++ rest := by rfl
      rw [if_pos (by rw [heq]; exact pStartsWith_append _ _)]
  have hb2 : hostBranch2 (name ++ '/' :: rest)
      = .ok (.other name none) rest := by
    unfold hostBranch2
    rw [takeWhile1_ok_of hne hall (headNot_cons (by decide))]
    simp
  unfold hostParser
  rw [hb1, hb2]

theorem hostParser_other_port (name rest : List Char) (p : Nat)
    (hne : name ≠ []) (hall : ∀ c ∈ name, hostnameChar c = true)
    (hp : p ≤ 65535) :
    hostParser (name ++ ':' :: (natToDigits p ++ '/' :: rest))
      = .ok (.other name (some p)) rest := by
  have hb1 : hostBranch1 (name ++ ':' :: (natToDigits p ++ '/' :: rest))
      = .fail :=
    hostBranch1_fail_of _
      (dropWhile_head_not_slash_of_stop hall (by decide) (by decide) _)
  have hb2 : hostBranch2 (name ++ ':' :: (natToDigits p ++ '/' :: rest))
      = .fail := by
    unfold hostBranch2
    rw [takeWhile1_ok_of hne hall (headNot_cons (by decide))]
    simp
  have hport : portParser (natToDigits p ++ '/' :: rest)
      = .ok p ('/' :: rest) := by
    cases hd : natToDigits p with
    | nil => exact absurd hd (natToDigits_ne_nil p)
    | cons d ds =>
      have hdig : ∀ c ∈ d :: ds, c.isDigit = true := by
        rw [← hd]
        exact natToDigits_all_digit p
      have htw := (takeWhile_append_of_all (d :: ds) ('/' :: rest)
        hdig (headNot_cons (by decide))).1
      have hlen : (d :: ds).length ≤ 5 := by
        rw [← hd]
        exact natToDigits_length_le 5 p (by omega) (by omega)
      have hval : digitsToNat (d :: ds) = p := by
        rw [← hd]
        exact digitsToNat_natToDigits p
      unfold portParser
      rw [htw, List.take_of_length_le hlen]
      simp only [hval, if_pos hp, List.drop_left]
  have hb3 : hostBranch3 (name ++ ':' :: (natToDigits p ++ '/' :: rest))
      = .ok (.other name (some p)) rest := by
    unfold hostBranch3
    rw [takeWhile1_ok_of hne hall (headNot_cons (by decide))]
    simp only [if_pos rfl]
    rw [hport]
    simp
  unfold hostParser
  rw [hb1, hb2, hb3]

theorem takeWhile1_ok_all {p : Char → Bool} {s : List Char}
    (hs : s ≠ []) (hall : ∀ c ∈ s, p c = true) :
    takeWhile1 p s = .ok s [] := by
  have h := takeWhile1_ok_of hs hall (headNot_nil p)
  rwa [List.append_nil] at h

/-- The tail of a displayed DockerReference after its host part: the name,
the optional colon-tag, the optional at-digest. -/
def dockerTail (r : DockerReferenceL) : List Char :=
  r.name ++ (displayTagPart r.tag ++ displayDigestPart r.digest)

theorem dockerRefParser_forward (host : HostL) (hostDisp : List Char)
    (name : List Char) (tag digest : Option (List Char))
    (hname : name ≠ []) (hnameAll : ∀ c ∈ name, tagNameChar c = true)
    (htag : ∀ t, tag = some t → t ≠ [] ∧ ∀ c ∈ t, tagNameChar c = true)
    (hdig : ∀ d, digest = some d → d ≠ [] ∧ ∀ c ∈ d, digestChar c = true)
    (hhost : hostParser
        (hostDisp ++ (name ++ (displayTagPart tag ++ displayDigestPart digest)))
      = .ok host (name ++ (displayTagPart tag ++ displayDigestPart digest))) :
    dockerRefParser
        (hostDisp ++ (name ++ (displayTagPart tag ++ displayDigestPart digest)))
      = .ok ⟨host, name, tag, digest⟩ [] := by
  unfold dockerRefParser
  have hstop : headNot tagNameChar
      (displayTagPart tag ++ displayDigestPart digest) := by
    cases tag with
    | some t => exact headNot_cons (by decide)
    | none =>
      cases digest with
      | some d => exact headNot_cons (by decide)
      | none => exact headNot_nil _
  simp only [hhost, takeWhile1_ok_of hname hnameAll hstop]
  cases tag with
  | some t =>
    obtain ⟨htne, htall⟩ := htag t rfl
    have hstop2 : headNot tagNameChar (displayDigestPart digest) := by
      cases digest with
      | some d => exact headNot_cons (by decide)
      | none => exact headNot_nil _
    simp only [displayTagPart, List.cons_append, if_true]
    simp only [takeWhile1_ok_of htne htall hstop2]
    cases digest with
    | some d =>
      obtain ⟨hdne, hdall⟩ := hdig d rfl
      simp only [displayDigestPart, if_true]
      simp only [takeWhile1_ok_all hdne hdall]
    | none => rfl
  | none =>
    cases digest with
    | some d =>
      obtain ⟨hdne, hdall⟩ := hdig d rfl
      simp only [displayTagPart, displayDigestPart, List.nil_append,
        List.cons_append, if_true]
      simp only [takeWhile1_ok_all hdne hdall]
      rw [if_neg (by decide)]
    | none => rfl

theorem localPathParser_forward (path : List Char) (ref : Option (List Char))
    (hne : path ≠ []) (hnc : ∀ c ∈ path, c ≠ ':')
    (href : ∀ r, ref = some r → r ≠ []) :
    localPathParser (path ++ displayRefPart ref) = .ok ⟨path, ref⟩ [] := by
  unfold localPathParser
  have hall : ∀ c ∈ path, (!(c = ':' : Bool)) = true := by
    intro c hc
    simp [hnc c hc]
  have hstop : headNot (fun c => !(c = ':' : Bool)) (displayRefPart ref) := by
    cases ref with
    | some r => exact headNot_cons (by decide)
    | none => exact headNot_nil _
  rw [takeWhile1_ok_of hne hall hstop]
  cases ref with
  | none => rfl
  | some r =>
    cases hr : r with
    | nil => exact absurd hr (href r rfl)
    | cons c2 cs =>
      simp [displayRefPart]

theorem parseImage_display_docker (r : DockerReferenceL)
    (hname : r.name ≠ []) (hnameAll : ∀ c ∈ r.name, tagNameChar c = true)
    (htag : ∀ t, r.tag = some t → t ≠ [] ∧ ∀ c ∈ t, tagNameChar c = true)
    (hdig : ∀ d, r.digest = some d → d ≠ [] ∧ ∀ c ∈ d, digestChar c = true)
    (hhost : hostParser (displayHost r.host ++ dockerTail r)
      = .ok r.host (dockerTail r)) :
    parseImage (displayImageName (.docker r)) = .ok (.docker r) := by
  have hd : displayImageName (.docker r)
      = dockerPrefix ++ (displayHost r.host ++ dockerTail r) := by
    unfold displayImageName displayDockerRef dockerTail dockerPrefix
    simp [List.append_assoc]
  have hparse := dockerRefParser_forward r.host (displayHost r.host)
    r.name r.tag r.digest hname hnameAll htag hdig hhost
  unfold parseImage imageNameParserRaw
  rw [hd, if_pos (pStartsWith_append _ _), List.drop_left]
  have hdt : dockerTail r
      = r.name ++ (displayTagPart r.tag ++ displayDigestPart r.digest) := rfl
  rw [hdt, hparse]
  rfl

theorem parseImage_display_oci (p : LocalPathL)
    (hnc : ∀ c ∈ p.path, c ≠ ':')
    (href : ∀ r, p.reference = some r → r ≠ []) :
    parseImage (displayImageName (.oci p))
      = .ok (.oci ⟨'/' :: '/' :: p.path, p.reference⟩) := by
  have hparse := localPathParser_forward ('/' :: '/' :: p.path) p.reference
    (by simp) ?hnc2 href
  case hnc2 =>
    intro c hc
    rcases List.mem_cons.1 hc with rfl | hc2
    · decide
    · rcases List.mem_cons.1 hc2 with rfl | hc3
      · decide
      · exact hnc c hc3
  have hd : displayImageName (.oci p)
      = ociPrefix ++ (('/' :: '/' :: p.path) ++ displayRefPart p.reference) := by
    unfold displayImageName displayLocalPath ociPrefix
    rfl
  unfold parseImage imageNameParserRaw
  rw [hd]
  have hnotdocker : pStartsWith dockerPrefix
      (ociPrefix ++ (('/' :: '/' :: p.path) ++ displayRefPart p.reference))
      = false := rfl
  rw [if_neg (by rw [hnotdocker]; simp), if_pos (pStartsWith_append _ _),
    List.drop_left, hparse]
  rfl

theorem parseImage_display_ociArchive (p : LocalPathL)
    (hnc : ∀ c ∈ p.path, c ≠ ':')
    (href : ∀ r, p.reference = some r → r ≠ []) :
    parseImage (displayImageName (.ociArchive p))
      = .ok (.ociArchive ⟨'/' :: '/' :: p.path, p.reference⟩) := by
  have hparse := localPathParser_forward ('/' :: '/' :: p.path) p.reference
    (by simp) ?hnc2 href
  case hnc2 =>
    intro c hc
    rcases List.mem_cons.1 hc with rfl | hc2
    · decide
    · rcases List.mem_cons.1 hc2 with rfl | hc3
      · decide
      · exact hnc c hc3
  have hd : displayImageName (.ociArchive p)
      = ociArchivePrefix
        ++ (('/' :: '/' :: p.path) ++ displayRefPart p.reference) := by
    unfold displayImageName displayLocalPath ociArchivePrefix
    rfl
  unfold parseImage imageNameParserRaw
  rw [hd]
  have h1 : pStartsWith dockerPrefix
      (ociArchivePrefix ++ (('/' :: '/' :: p.path) ++ displayRefPart p.reference))
      = false := rfl
  have h2 : pStartsWith ociPrefix
      (ociArchivePrefix ++ (('/' :: '/' :: p.path) ++ displayRefPart p.reference))
      = false := rfl
  rw [if_neg (by rw [h1]; simp), if_neg (by rw [h2]; simp),
    if_pos (pStartsWith_append _ _), List.drop_left, hparse]
  rfl

theorem mapPRes_ok_inv {α β : Type} {f : α → β} {res : PRes α} {b : β}
    {rest : List Char} (h : mapPRes f res = .ok b rest) :
    ∃ a, res = .ok a rest ∧ b = f a := by
  cases res with
  | ok a r =>
    unfold mapPRes at h
    cases h
    exact ⟨a, rfl, rfl⟩
  | fail => cases h
  | panic => cases h

theorem localPathParser_ok_inv {input : List Char} {lp : LocalPathL}
    (h : localPathParser input = .ok lp []) :
    lp.path ≠ [] ∧ (∀ c ∈ lp.path, c ≠ ':')
    ∧ (∀ r, lp.reference = some r → r ≠ [])
    ∧ input = lp.path ++ displayRefPart lp.reference := by
  unfold localPathParser at h
  cases htw : takeWhile1 (fun c => !(c = ':' : Bool)) input with
  | panic => rw [htw] at h; cases h
  | fail => rw [htw] at h; cases h
  | ok path rest =>
    obtain ⟨hne, hall, hsplit, hstop⟩ := takeWhile1_ok_inv htw
    have hnc : ∀ c ∈ path, c ≠ ':' := by
      intro c hc heq
      have hb := hall c hc
      rw [heq] at hb
      simp at hb
    cases rest with
    | nil =>
      simp only [htw] at h
      cases h
      refine ⟨hne, hnc, ?_, ?_⟩
      · intro r hr
        cases hr
      · rw [hsplit]
        rfl
    | cons c r =>
      simp only [htw] at h
      by_cases hc : c = ':'
      · subst hc
        rw [if_pos rfl] at h
        cases r with
        | nil => cases h
        | cons c2 cs =>
          cases h
          refine ⟨hne, hnc, ?_, ?_⟩
          · intro r2 hr2
            cases hr2
            simp
          · rw [hsplit]
            rfl
      · rw [if_neg hc] at h
        cases h

theorem portParser_ok_le {input : List Char} {p : Nat} {rest : List Char}
    (h : portParser input = .ok p rest) : p ≤ 65535 := by
  unfold portParser at h
  cases hds : (input.takeWhile Char.isDigit).take 5 with
  | nil => rw [hds] at h; cases h
  | cons d ds =>
    rw [hds] at h
    simp only at h
    by_cases hn : digitsToNat (d :: ds) ≤ 65535
    · rw [if_pos hn] at h
      cases h
      exact hn
    · rw [if_neg hn] at h
      cases h

theorem hostBranch1_ok_inv {input : List Char} {host : HostL}
    {rest : List Char} (h : hostBranch1 input = .ok host rest) :
    ∃ lib, host = .dockerIo (some lib) ∧ lib ≠ []
      ∧ (∀ c ∈ lib, notHostnameChar c = true) ∧ lib ≠ "localhost".data
      ∧ input = lib ++ '/' :: rest := by
  unfold hostBranch1 at h
  by_cases hsw : pStartsWith ("localhost/".data) input = true
  · rw [if_pos hsw] at h
    cases h
  · rw [if_neg hsw] at h
    cases htw : takeWhile1 notHostnameChar input with
    | panic => rw [htw] at h; cases h
    | fail => rw [htw] at h; cases h
    | ok run rest0 =>
      obtain ⟨hne, hall, hsplit, hstop⟩ := takeWhile1_ok_inv htw
      cases rest0 with
      | nil => rw [htw] at h; cases h
      | cons c rest2 =>
        simp only [htw] at h
        by_cases hc : c = '/'
        · subst hc
          rw [if_pos rfl] at h
          have hh : HostL.dockerIo (some run) = host ∧ rest2 = rest := by
            cases h
            exact ⟨rfl, rfl⟩
          obtain ⟨hh1, hh2⟩ := hh
          refine ⟨run, hh1.symm, hne, hall, ?_, by rw [← hh2]; exact hsplit⟩
          intro hloc
          apply hsw
          rw [hsplit, hloc]
          have hre : ("localhost".data : List Char) ++ '/' :: rest2
              = "localhost/".data ++ rest2 := rfl
          rw [hre]
          exact pStartsWith_append _ _
        · rw [if_neg hc] at h
          cases h

theorem hostBranch2_ok_inv {input : List Char} {host : HostL}
    {rest : List Char} (h : hostBranch2 input = .ok host rest) :
    ∃ nm, host = .other nm none ∧ nm ≠ []
      ∧ (∀ c ∈ nm, hostnameChar c = true) ∧ input = nm ++ '/' :: rest := by
  unfold hostBranch2 at h
  cases htw : takeWhile1 hostnameChar input with
  | panic => rw [htw] at h; cases h
  | fail => rw [htw] at h; cases h
  | ok run rest0 =>
    obtain ⟨hne, hall, hsplit, hstop⟩ := takeWhile1_ok_inv htw
    cases rest0 with
    | nil => rw [htw] at h; cases h
    | cons c rest2 =>
      simp only [htw] at h
      by_cases hc : c = '/'
      · subst hc
        rw [if_pos rfl] at h
        cases h
        exact ⟨run, rfl, hne, hall, hsplit⟩
      · rw [if_neg hc] at h
        cases h

theorem hostBranch3_ok_inv {input : List Char} {host : HostL}
    {rest : List Char} (h : hostBranch3 input = .ok host rest) :
    ∃ nm p, host = .other nm (some p) ∧ nm ≠ []
      ∧ (∀ c ∈ nm, hostnameChar c = true) ∧ p ≤ 65535 := by
  unfold hostBranch3 at h
  cases htw : takeWhile1 hostnameChar input with
  | panic => rw [htw] at h; cases h
  | fail => rw [htw] at h; cases h
  | ok run rest0 =>
    obtain ⟨hne, hall, hsplit, hstop⟩ := takeWhile1_ok_inv htw
    cases rest0 with
    | nil => rw [htw] at h; cases h
    | cons c rest2 =>
      simp only [htw] at h
      by_cases hc : c = ':'
      · subst hc
        rw [if_pos rfl] at h
        cases hport : portParser rest2 with
        | panic => rw [hport] at h; cases h
        | fail => rw [hport] at h; cases h
        | ok p rest3 =>
          cases rest3 with
          | nil => rw [hport] at h; cases h
          | cons c2 rest4 =>
            simp only [hport] at h
            by_cases hc2 : c2 = '/'
            · subst hc2
              rw [if_pos rfl] at h
              cases h
              exact ⟨run, p, rfl, hne, hall, portParser_ok_le hport⟩
            · rw [if_neg hc2] at h
              cases h
      · rw [if_neg hc] at h
        cases h

theorem hostBranch1_fail_dot_or_localhost {nm r1 : List Char}
    (hne : nm ≠ []) (hall : ∀ c ∈ nm, hostnameChar c = true)
    (h : hostBranch1 (nm ++ '/' :: r1) = .fail) :
    ('.' : Char) ∈ nm ∨ nm = "localhost".data := by
  unfold hostBranch1 at h
  by_cases hsw : pStartsWith ("localhost/".data) (nm ++ '/' :: r1) = true
  · right
    have heq : ("localhost/".data : List Char)
        = "localhost".data ++ ['/'] := by decide
    rw [heq] at hsw
    have hslash : ('/' : Char) ∉ nm := by
      intro hm
      exact absurd (hall '/' hm) (by decide)
    exact pStartsWith_slash_unique "localhost".data nm r1 (by decide)
      hslash hsw
  · left
    rw [if_neg hsw] at h
    by_cases hbk : nm.dropWhile notHostnameChar = []
    · exfalso
      have hallN := List.dropWhile_eq_nil_iff.1 hbk
      have hstop2 : headNot notHostnameChar ('/' :: r1) :=
        headNot_cons (by decide)
      have htwk : takeWhile1 notHostnameChar (nm ++ '/' :: r1)
          = .ok nm ('/' :: r1) :=
        takeWhile1_ok_of hne (fun c hc => hallN c hc) hstop2
      simp only [htwk, if_true] at h
      cases h
    · cases hd : nm.dropWhile notHostnameChar with
      | nil => exact absurd hd hbk
      | cons d ds =>
        have hdfalse : notHostnameChar d = false :=
          head_dropWhile_false nm d (by rw [hd]; rfl)
        have hdmem : d ∈ nm := by
          have hin : d ∈ nm.dropWhile notHostnameChar := by
            rw [hd]
            exact List.mem_cons_self d ds
          have hsplit2 : nm.takeWhile notHostnameChar
              ++ nm.dropWhile notHostnameChar = nm :=
            List.takeWhile_append_dropWhile notHostnameChar nm
          rw [← hsplit2]
          exact List.mem_append_right _ hin
        have hdd : d = '.' :=
          notHostname_false_hostname_true hdfalse (hall d hdmem)
        rw [← hdd]
        exact hdmem

theorem hostParser_ok_inv {input : List Char} {host : HostL}
    {rest : List Char} (h : hostParser input = .ok host rest) :
    (host = .dockerIo none ∧ rest = input)
    ∨ (∃ lib, host = .dockerIo (some lib) ∧ lib ≠ []
        ∧ (∀ c ∈ lib, notHostnameChar c = true) ∧ lib ≠ "localhost".data
        ∧ input = lib ++ '/' :: rest)
    ∨ (∃ nm, host = .other nm none ∧ nm ≠ []
        ∧ (∀ c ∈ nm, hostnameChar c = true)
        ∧ (('.' : Char) ∈ nm ∨ nm = "localhost".data)
        ∧ input = nm ++ '/' :: rest)
    ∨ (∃ nm p, host = .other nm (some p) ∧ nm ≠ []
        ∧ (∀ c ∈ nm, hostnameChar c = true) ∧ p ≤ 65535) := by
  unfold hostParser at h
  cases hb1 : hostBranch1 input with
  | ok h1 r1 =>
    rw [hb1] at h
    cases h
    obtain ⟨lib, hh, hne, hall, hnl, hin⟩ := hostBranch1_ok_inv hb1
    exact Or.inr (Or.inl ⟨lib, hh, hne, hall, hnl, hin⟩)
  | panic => rw [hb1] at h; cases h
  | fail =>
    rw [hb1] at h
    cases hb2 : hostBranch2 input with
    | ok h2 r2 =>
      rw [hb2] at h
      cases h
      obtain ⟨nm, hh, hne, hall, hin⟩ := hostBranch2_ok_inv hb2
      refine Or.inr (Or.inr (Or.inl ⟨nm, hh, hne, hall, ?_, hin⟩))
      exact hostBranch1_fail_dot_or_localhost hne hall (hin ▸ hb1)
    | panic => rw [hb2] at h; cases h
    | fail =>
      rw [hb2] at h
      cases hb3 : hostBranch3 input with
      | ok h3 r3 =>
        rw [hb3] at h
        cases h
        obtain ⟨nm, p, hh, hne, hall, hp⟩ := hostBranch3_ok_inv hb3
        exact Or.inr (Or.inr (Or.inr ⟨nm, p, hh, hne, hall, hp⟩))
      | panic => rw [hb3] at h; cases h
      | fail =>
        rw [hb3] at h
        cases h
        exact Or.inl ⟨rfl, rfl⟩

theorem dockerRefParser_ok_inv {input : List Char} {r : DockerReferenceL}
    (h : dockerRefParser input = .ok r []) :
    (r.name ≠ [] ∧ ∀ c ∈ r.name, tagNameChar c = true)
    ∧ (∀ t, r.tag = some t → t ≠ [] ∧ ∀ c ∈ t, tagNameChar c = true)
    ∧ (∀ d, r.digest = some d → d ≠ [] ∧ ∀ c ∈ d, digestChar c = true)
    ∧ hostParser input = .ok r.host (dockerTail r) := by
  unfold dockerRefParser at h
  cases hhost : hostParser input with
  | panic => rw [hhost] at h; cases h
  | fail => rw [hhost] at h; cases h
  | ok host rest1 =>
    cases htw : takeWhile1 tagNameChar rest1 with
    | panic => simp only [hhost, htw] at h; cases h
    | fail => simp only [hhost, htw] at h; cases h
    | ok name rest2 =>
      obtain ⟨hne, hall, hsplit, hstop⟩ := takeWhile1_ok_inv htw
      cases rest2 with
      | nil =>
        simp only [hhost, htw] at h
        cases h
        refine ⟨⟨hne, hall⟩, ?_, ?_, ?_⟩
        · intro t ht; cases ht
        · intro d hd; cases hd
        · rw [hsplit]
          unfold dockerTail displayTagPart displayDigestPart
          simp
      | cons c rr =>
        simp only [hhost, htw] at h
        by_cases hc : c = ':'
        · subst hc
          rw [if_pos rfl] at h
          cases htw2 : takeWhile1 tagNameChar rr with
          | panic => rw [htw2] at h; cases h
          | fail => rw [htw2] at h; cases h
          | ok t rest3 =>
            obtain ⟨htne, htall, hsplit2, hstop2⟩ := takeWhile1_ok_inv htw2
            cases rest3 with
            | nil =>
              simp only [htw2] at h
              cases h
              refine ⟨⟨hne, hall⟩, ?_, ?_, ?_⟩
              · intro t2 ht2
                cases ht2
                exact ⟨htne, htall⟩
              · intro d hd; cases hd
              · rw [hsplit, hsplit2]
                unfold dockerTail displayTagPart displayDigestPart
                simp
            | cons c2 rd =>
              simp only [htw2] at h
              by_cases hc2 : c2 = '@'
              · subst hc2
                rw [if_pos rfl] at h
                cases htw3 : takeWhile1 digestChar rd with
                | panic => rw [htw3] at h; cases h
                | fail => rw [htw3] at h; cases h
                | ok d rest4 =>
                  obtain ⟨hdne, hdall, hsplit3, hstop3⟩ :=
                    takeWhile1_ok_inv htw3
                  simp only [htw3] at h
                  cases h
                  refine ⟨⟨hne, hall⟩, ?_, ?_, ?_⟩
                  · intro t2 ht2
                    cases ht2
                    exact ⟨htne, htall⟩
                  · intro d2 hd2
                    cases hd2
                    exact ⟨hdne, hdall⟩
                  · rw [hsplit, hsplit2, hsplit3]
                    unfold dockerTail displayTagPart displayDigestPart
                    simp
              · rw [if_neg hc2] at h
                cases h
        · rw [if_neg hc] at h
          by_cases hc2 : c = '@'
          · subst hc2
            rw [if_pos rfl] at h
            cases htw3 : takeWhile1 digestChar rr with
            | panic => rw [htw3] at h; cases h
            | fail => rw [htw3] at h; cases h
            | ok d rest4 =>
              obtain ⟨hdne, hdall, hsplit3, hstop3⟩ := takeWhile1_ok_inv htw3
              simp only [htw3] at h
              cases h
              refine ⟨⟨hne, hall⟩, ?_, ?_, ?_⟩
              · intro t ht; cases ht
              · intro d2 hd2
                cases hd2
                exact ⟨hdne, hdall⟩
              · rw [hsplit, hsplit3]
                unfold dockerTail displayTagPart displayDigestPart
                simp
          · rw [if_neg hc2] at h
            cases h

/-- The facts about a DockerReference value that characterize it as a value
the parser produced; for the default host they record how the host parser
behaves on the tail, which is exactly the input the parser saw. -/
def hostFacts (r : DockerReferenceL) : Prop :=
  match r.host with
  | .dockerIo none =>
    hostParser (dockerTail r) = .ok (.dockerIo none) (dockerTail r)
  | .dockerIo (some lib) =>
    lib ≠ [] ∧ (∀ c ∈ lib, notHostnameChar c = true)
      ∧ lib ≠ "localhost".data
  | .other nm none =>
    nm ≠ [] ∧ (∀ c ∈ nm, hostnameChar c = true)
      ∧ (('.' : Char) ∈ nm ∨ nm = "localhost".data)
  | .other nm (some p) =>
    nm ≠ [] ∧ (∀ c ∈ nm, hostnameChar c = true) ∧ p ≤ 65535

/-- What it means for a value to be producible by ImageName::parser. -/
def Producible : ImageNameL → Prop
  | .docker r =>
    (r.name ≠ [] ∧ ∀ c ∈ r.name, tagNameChar c = true)
    ∧ (∀ t, r.tag = some t → t ≠ [] ∧ ∀ c ∈ t, tagNameChar c = true)
    ∧ (∀ d, r.digest = some d → d ≠ [] ∧ ∀ c ∈ d, digestChar c = true)
    ∧ hostFacts r
  | .oci p =>
    p.path ≠ [] ∧ (∀ c ∈ p.path, c ≠ ':')
      ∧ (∀ s, p.reference = some s → s ≠ [])
  | .ociArchive p =>
    p.path ≠ [] ∧ (∀ c ∈ p.path, c ≠ ':')
      ∧ (∀ s, p.reference = some s → s ≠ [])

theorem parseImage_ok_producible {s : List Char} {v : ImageNameL}
    (h : parseImage s = .ok v) : Producible v := by
  unfold parseImage at h
  cases hraw : imageNameParserRaw s with
  | panic => rw [hraw] at h; cases h
  | fail => rw [hraw] at h; cases h
  | ok v2 rest =>
    cases rest with
    | cons c cs => rw [hraw] at h; cases h
    | nil =>
      simp only [hraw] at h
      cases h
      unfold imageNameParserRaw at hraw
      by_cases h1 : pStartsWith dockerPrefix s = true
      · rw [if_pos h1] at hraw
        obtain ⟨r, hdr, hv⟩ := mapPRes_ok_inv hraw
        subst hv
        obtain ⟨hn, ht, hd, hhost⟩ := dockerRefParser_ok_inv hdr
        refine ⟨hn, ht, hd, ?_⟩
        unfold hostFacts
        rcases hostParser_ok_inv hhost with
          ⟨hh, hr⟩ | ⟨lib, hh, hne, hall, hnl, hin⟩
          | ⟨nm, hh, hne, hall, hdot, hin⟩ | ⟨nm, p, hh, hne, hall, hp⟩
        · simp only [hh]
          rw [hr]
          rw [hh, hr] at hhost
          exact hhost
        · simp only [hh]
          exact ⟨hne, hall, hnl⟩
        · simp only [hh]
          exact ⟨hne, hall, hdot⟩
        · simp only [hh]
          exact ⟨hne, hall, hp⟩
      · rw [if_neg h1] at hraw
        by_cases h2 : pStartsWith ociPrefix s = true
        · rw [if_pos h2] at hraw
          obtain ⟨lp, hlp, hv⟩ := mapPRes_ok_inv hraw
          subst hv
          obtain ⟨hne, hnc, href, hin⟩ := localPathParser_ok_inv hlp
          exact ⟨hne, hnc, href⟩
        · rw [if_neg h2] at hraw
          by_cases h3 : pStartsWith ociArchivePrefix s = true
          · rw [if_pos h3] at hraw
            obtain ⟨lp, hlp, hv⟩ := mapPRes_ok_inv hraw
            subst hv
            obtain ⟨hne, hnc, href, hin⟩ := localPathParser_ok_inv hlp
            exact ⟨hne, hnc, href⟩
          · rw [if_neg h3] at hraw
            cases hraw

theorem splitOnSlash_slash (s : List Char) :
    splitOnSlash ('/' :: s) = [] :: splitOnSlash s := rfl

theorem bodyComps_slash (s : List Char) :
    bodyComps ('/' :: s) = bodyComps s := by
  unfold bodyComps
  rw [splitOnSlash_slash]
  rw [List.filter_cons]
  simp [segKeep]

theorem bodyComps_no_root (s : List Char) :
    PathCompR.rootDir ∉ bodyComps s := by
  intro hx
  unfold bodyComps at hx
  obtain ⟨seg, hseg, hmap⟩ := List.mem_map.1 hx
  unfold seg2comp at hmap
  by_cases hss : (seg == ['.', '.']) = true
  · rw [if_pos hss] at hmap
    cases hmap
  · rw [if_neg hss] at hmap
    cases hmap

theorem pathComponents_two_slashes (p : List Char) :
    pathComponents ('/' :: '/' :: p) = .rootDir :: bodyComps p := by
  have h0 : pathComponents ('/' :: '/' :: p)
      = .rootDir :: bodyComps ('/' :: '/' :: p) := rfl
  rw [h0, bodyComps_slash, bodyComps_slash]

theorem pathComponents_no_root_of_head {c : Char} (cs : List Char)
    (hc : c ≠ '/') : PathCompR.rootDir ∉ pathComponents (c :: cs) := by
  intro hx
  unfold pathComponents at hx
  split at hx
  · next heq =>
    exact hc (List.cons.inj heq.symm).1.symm
  · next heq =>
    split at hx
    · rcases List.mem_cons.1 hx with hh | hh
      · cases hh
      · exact bodyComps_no_root _ hh
    · exact bodyComps_no_root _ hx
  · exact bodyComps_no_root _ hx

theorem pathEq_double_slash_iff (p : List Char) (hne : p ≠ []) :
    pathEqR ('/' :: '/' :: p) p ↔ p.head? = some '/' := by
  constructor
  · intro h
    unfold pathEqR at h
    rw [pathComponents_two_slashes] at h
    cases p with
    | nil => exact absurd rfl hne
    | cons c cs =>
      by_cases hc : c = '/'
      · rw [hc]
        rfl
      · exfalso
        apply pathComponents_no_root_of_head cs hc
        rw [← h]
        exact List.mem_cons_self _ _
  · intro hp
    cases p with
    | nil => cases hp
    | cons c cs =>
      have hc : c = '/' := by
        simpa using hp
      subst hc
      unfold pathEqR
      rw [pathComponents_two_slashes]
      rfl

/-- CLAIM C10 (amended).  For every value the ImageName parser produces,
parsing the Display output succeeds; for a Docker value the result equals
the original value, while for an Oci or OciArchive value the result is the
same variant with the same reference and the path prefixed by two slashes
(Display writes the scheme with :// although the parser consumes only the
scheme and one colon), which equals the original value, under the
components-based path equality Rust uses, exactly when the original path is
absolute. -/
theorem image_name_display_then_parse
    (s : List Char) (v : ImageNameL) (h : parseImage s = .ok v) :
    (∀ r, v = .docker r → parseImage (displayImageName v) = .ok v)
    ∧ (∀ p, v = .oci p →
        parseImage (displayImageName v)
          = .ok (.oci ⟨'/' :: '/' :: p.path, p.reference⟩)
        ∧ (imageNameEqR (.oci ⟨'/' :: '/' :: p.path, p.reference⟩) v
            ↔ p.path.head? = some '/'))
    ∧ (∀ p, v = .ociArchive p →
        parseImage (displayImageName v)
          = .ok (.ociArchive ⟨'/' :: '/' :: p.path, p.reference⟩)
        ∧ (imageNameEqR (.ociArchive ⟨'/' :: '/' :: p.path, p.reference⟩) v
            ↔ p.path.head? = some '/')) := by
  have hprod := parseImage_ok_producible h
  cases v with
  | docker r =>
    refine ⟨?_, ?_, ?_⟩
    · intro r2 hr2
      obtain ⟨⟨hne, hall⟩, ht, hd, hfacts⟩ := hprod
      apply parseImage_display_docker r hne hall ht hd
      obtain ⟨host, name, tag, digest⟩ := r
      cases host with
      | dockerIo olib =>
        cases olib with
        | none =>
          have hfx : hostParser
              (dockerTail ⟨.dockerIo none, name, tag, digest⟩)
              = .ok (.dockerIo none)
                (dockerTail ⟨.dockerIo none, name, tag, digest⟩) := hfacts
          have hds : displayHost (.dockerIo none)
              ++ dockerTail ⟨HostL.dockerIo none, name, tag, digest⟩
              = dockerTail ⟨HostL.dockerIo none, name, tag, digest⟩ := rfl
          rw [hds]
          exact hfx
        | some lib =>
          obtain ⟨hne2, hall2, hnl⟩ := hfacts
          have hds : displayHost (.dockerIo (some lib))
              ++ dockerTail ⟨HostL.dockerIo (some lib), name, tag, digest⟩
              = lib ++ '/'
                :: dockerTail ⟨HostL.dockerIo (some lib), name, tag, digest⟩ := by
            unfold displayHost
            rw [List.append_assoc]
            rfl
          rw [hds]
          exact hostParser_dockerIo_some lib _ hne2 hall2 hnl
      | other nm oport =>
        cases oport with
        | none =>
          obtain ⟨hne2, hall2, hdot⟩ := hfacts
          have hds : displayHost (.other nm none)
              ++ dockerTail ⟨HostL.other nm none, name, tag, digest⟩
              = nm ++ '/'
                :: dockerTail ⟨HostL.other nm none, name, tag, digest⟩ := by
            unfold displayHost
            rw [List.append_assoc]
            rfl
          rw [hds]
          exact hostParser_other_none nm _ hne2 hall2 hdot
        | some p =>
          obtain ⟨hne2, hall2, hp⟩ := hfacts
          have hds : displayHost (.other nm (some p))
              ++ dockerTail ⟨HostL.other nm (some p), name, tag, digest⟩
              = nm ++ ':' :: (natToDigits p ++ '/'
                :: dockerTail ⟨HostL.other nm (some p), name, tag, digest⟩) := by
            unfold displayHost
            simp [List.append_assoc]
          rw [hds]
          exact hostParser_other_port nm _ p hne2 hall2 hp
    · intro p hp
      cases hp
    · intro p hp
      cases hp
  | oci p =>
    obtain ⟨hne, hnc, href⟩ := hprod
    refine ⟨?_, ?_, ?_⟩
    · intro r2 hr2
      cases hr2
    · intro p2 hp2
      cases hp2
      refine ⟨parseImage_display_oci p hnc href, ?_⟩
      unfold imageNameEqR localPathEqR
      simp only [and_true]
      exact pathEq_double_slash_iff p.path hne
    · intro p2 hp2
      cases hp2
  | ociArchive p =>
    obtain ⟨hne, hnc, href⟩ := hprod
    refine ⟨?_, ?_, ?_⟩
    · intro r2 hr2
      cases hr2
    · intro p2 hp2
      cases hp2
    · intro p2 hp2
      cases hp2
      refine ⟨parseImage_display_ociArchive p hnc href, ?_⟩
      unfold imageNameEqR localPathEqR
      simp only [and_true]
      exact pathEq_double_slash_iff p.path hne

/-- Witness for CLAIM C10 (amended): a concrete full Docker reference and a
concrete absolute-path Oci value, both produced by the parser, round-trip
through Display and parse. -/
theorem image_name_display_then_parse_witness :
    (parseImage ("docker://foo.com:1234/bar:latest@sha256:abc".data)
        = .ok (.docker ⟨.other "foo.com".data (some 1234), "bar".data,
            some "latest".data, some "sha256:abc".data⟩)
      ∧ parseImage (displayImageName
          (.docker ⟨.other "foo.com".data (some 1234), "bar".data,
            some "latest".data, some "sha256:abc".data⟩))
        = .ok (.docker ⟨.other "foo.com".data (some 1234), "bar".data,
            some "latest".data, some "sha256:abc".data⟩))
    ∧ (parseImage ("oci:/ab:r1".data)
        = .ok (.oci ⟨"/ab".data, some "r1".data⟩)
      ∧ parseImage (displayImageName (.oci ⟨"/ab".data, some "r1".data⟩))
        = .ok (.oci ⟨'/' :: '/' :: "/ab".data, some "r1".data⟩)
      ∧ (imageNameEqR (.oci ⟨'/' :: '/' :: "/ab".data, some "r1".data⟩)
          (.oci ⟨"/ab".data, some "r1".data⟩)
          ↔ ("/ab".data : List Char).head? = some '/')) := by
  constructor
  · refine ⟨by decide, ?_⟩
    exact (image_name_display_then_parse
      ("docker://foo.com:1234/bar:latest@sha256:abc".data)
      (.docker ⟨.other "foo.com".data (some 1234), "bar".data,
        some "latest".data, some "sha256:abc".data⟩)
      (by decide)).1 _ rfl
  · refine ⟨by decide, ?_⟩
    have happ := (image_name_display_then_parse
      ("oci:/ab:r1".data) (.oci ⟨"/ab".data, some "r1".data⟩)
      (by decide)).2.1 ⟨"/ab".data, some "r1".data⟩ rfl
    exact ⟨happ.1, happ.2⟩

/-- Counterexample to CLAIM C10 as stated: the parser produces the value
Oci(path "foo") from the input oci:foo, but its Display writes oci://foo,
which reparses to Oci(path "//foo"), and //foo is an absolute path while
foo is relative, so the round trip does not return an equal value. -/
theorem image_name_roundtrip_counterexample :
    parseImage ("oci:foo".data) = .ok (.oci ⟨"foo".data, none⟩)
    ∧ displayImageName (.oci ⟨"foo".data, none⟩) = "oci://foo".data
    ∧ parseImage ("oci://foo".data) = .ok (.oci ⟨"//foo".data, none⟩)
    ∧ ¬ imageNameEqR (.oci ⟨"//foo".data, none⟩) (.oci ⟨"foo".data, none⟩)
    ∧ (.oci ⟨"//foo".data, none⟩ : ImageNameL) ≠ .oci ⟨"foo".data, none⟩ := by
  refine ⟨by decide, by decide, by decide, ?_, by decide⟩
  intro h
  exact absurd h.1 (by decide)

end ImageNameModel
